import Mathlib

/-!
Verification of the natural-language specification of `src/task6.py`
(a filesystem inventory report generator) against a shallow embedding of
its code.

Strings are modelled as lists of characters (`Str`).  The filesystem
seen by one invocation is modelled as a static tree (`FSNode`): the code
only reads the tree (`os.walk`, `os.stat`, `os.path.islink`), and the
listing order of a directory is whatever order its children carry.
`os.stat` failures (the listing/stat race the spec mentions) are
modelled by a predicate `broken` on paths: `os.stat p` fails iff
`broken p`.

A root path is resolved to `Option FSNode`: `none` when the path does
not exist (a dangling symbolic link included, as `os.path.exists`
reports such a path as missing).  Both `os.path.exists` and
`os.scandir` follow a symbolic link given to them directly —
`os.walk`'s `followlinks=False` only guards the descent below the top —
so a root path that is a symbolic link to a directory is modelled as
the directory node it resolves to, and one that is a symbolic link to a
regular file as the target file node.  `.symlink` nodes therefore occur
only as directory children, where they are classified but never
followed and never stat'ed.
-/

namespace Task6

/-- Python strings, modelled as lists of characters. -/
abbrev Str := List Char

/-- Does the path end with the separator character? -/
def endsWithSlash (p : Str) : Bool := p.getLast? == some '/'

/-- Append a trailing separator unless one is already present. -/
def withSlash (p : Str) : Str := if endsWithSlash p then p else p ++ ['/']

/-- `os.path.join(d, n)` for a relative component `n` (POSIX rules, as the
code only ever joins a directory path with a bare entry name). -/
def joinP (d n : Str) : Str :=
  if d = [] then n else if endsWithSlash d then d ++ n else d ++ '/' :: n

/-- `os.path.basename`: everything after the last separator. -/
def basename (p : Str) : Str := (p.reverse.takeWhile (fun c => c != '/')).reverse

/-- `str.lower()`.  `Char.toLower` lowers exactly the ASCII range; the only
non-ASCII codepoint whose Python lowercase is a single ASCII letter is
KELVIN SIGN (to `k`), which cannot affect any comparison made by the code
(the supported extensions and `".zip"` contain no `k`). -/
def lowerStr (s : Str) : Str := s.map Char.toLower

/-- `filename.lower().endswith(".zip")`. -/
def endsWithZip (n : Str) : Bool := ".zip".data.isSuffixOf (lowerStr n)

/-- Decimal digits of a number. -/
def natStr (n : Nat) : Str := Nat.toDigits 10 n

/-- Rendering of `st_mtime` by
`datetime.fromtimestamp(..).strftime("%Y-%m-%d %H:%M:%S")`.  The calendar
arithmetic is orthogonal to every claim (no claim constrains the textual
form of the timestamp); the model renders the raw seconds value, keeping
the map from `st_mtime` to the rendered field injective as in the code. -/
def formatTime (t : Nat) : Str := natStr t

mutual
/-- One filesystem entry.  `file` carries `st_size` and `st_mtime`;
`dir` carries `st_mtime` and its children in listing order; `symlink`
records whether the link's target is a directory (which is what
`os.scandir`'s `is_dir()` classification follows).  A `symlink` node
occurs only as a directory child, where the walk classifies it but
never follows it and the analyzer skips it before any stat; a root path
naming a symbolic link is modelled by the node it finally resolves to
(see the module doc). -/
inductive FSNode where
  | file (size : Nat) (mtime : Nat)
  | symlink (isDir : Bool)
  | dir (mtime : Nat) (children : EntryList)
  deriving DecidableEq

/-- Children of a directory: (name, node) pairs in listing order. -/
inductive EntryList where
  | nil
  | cons (name : Str) (node : FSNode) (rest : EntryList)
  deriving DecidableEq
end

instance : Inhabited FSNode := ⟨.file 0 0⟩

instance : Inhabited EntryList := ⟨.nil⟩

/-- View of an `EntryList` as a plain list of pairs. -/
def EntryList.toList : EntryList → List (Str × FSNode)
  | .nil => []
  | .cons n c r => (n, c) :: r.toList

/-- `entry.is_dir()` (follows symbolic links, like `os.walk`'s classifier). -/
def isDirLike : FSNode → Bool
  | .dir _ _ => true
  | .symlink b => b
  | .file _ _ => false

/-- `os.path.islink`. -/
def isLink : FSNode → Bool
  | .symlink _ => true
  | _ => false

/-- `st_size` of a stat result. -/
def stSize : FSNode → Nat
  | .file s _ => s
  | _ => 0

/-- `st_mtime` of a stat result. -/
def stMtime : FSNode → Nat
  | .file _ m => m
  | .dir m _ => m
  | .symlink _ => 0

/-- One triple yielded by `os.walk`: the directory's path, its node, and
its children split into `dirnames` and `filenames` (split by `is_dir()`,
listing order preserved).  The node and the child nodes are carried along
so that the analyzer can model the subsequent `os.stat` calls. -/
structure Frame where
  dirpath : Str
  node : FSNode
  dirs : List (Str × FSNode)
  files : List (Str × FSNode)
  deriving DecidableEq

mutual
/-- `os.walk(p)` with its default arguments (`topdown=True`,
`followlinks=False`): yield the directory's own triple, then recurse into
each subdirectory in listing order, skipping symbolic links
(`followlinks=False` checks `islink` before descending).  For an
argument that is not a directory node — a regular file, for which
`scandir` raises `NotADirectoryError` and `onerror=None` drops it —
nothing is yielded.  Note that `scandir` resolves a final symbolic link
in its argument (`followlinks=False` only guards the descent below the
top), so a root path naming a symlink to an existing directory is
modelled by the resolved directory node, never by a `symlink` node
(module doc); link children are filtered out before the recursive
call. -/
def walk (p : Str) (node : FSNode) : List Frame :=
  match node with
  | .dir m ch =>
      ⟨p, .dir m ch, ch.toList.filter (fun c => isDirLike c.2),
        ch.toList.filter (fun c => !isDirLike c.2)⟩ :: walkChildren p ch
  | _ => []

/-- Recursion of `os.walk` over the children: descend into `(n, c)` iff
`c` is dir-like and not a symbolic link (i.e. a real directory). -/
def walkChildren (p : Str) (ch : EntryList) : List Frame :=
  match ch with
  | .nil => []
  | .cons n c rest =>
      (if isDirLike c && !isLink c then walk (joinP p n) c else [])
        ++ walkChildren p rest
end

/-- A usable entry name: non-empty and free of the separator.  Every name
an `os.scandir` listing can return satisfies this. -/
def goodName (n : Str) : Bool := !(decide (n = [])) && !(decide ('/' ∈ n))

mutual
/-- Well-formedness of a modelled filesystem tree: sibling names are
distinct (they share one directory) and every name is a usable entry
name.  Every real directory tree satisfies this. -/
def WF : FSNode → Bool
  | .dir _ ch => decide ((ch.toList.map Prod.fst).Nodup) && WFChildren ch
  | _ => true

/-- Well-formedness of a children list. -/
def WFChildren : EntryList → Bool
  | .nil => true
  | .cons n c rest => goodName n && WF c && WFChildren rest
end

/-- `os.walk(root_path)` as invoked by `analyze`, with `root` the node
the root path resolves to (module doc): nothing if the root does not
exist; `os.scandir("")` also fails with `ENOENT`, so an empty root path
yields nothing. -/
def walkTop (rootPath : Str) (root : Option FSNode) : List Frame :=
  match root with
  | none => []
  | some node => if rootPath = [] then [] else walk rootPath node

/-- Element kind strings `'folder' | 'zip_folder' | 'file'`. -/
inductive ElemType where
  | folder
  | zip_folder
  | file
  deriving DecidableEq, Repr

/-- The mixed-typed fourth tuple component: `"FOLDER"` or a byte count. -/
inductive SizeOrType where
  | label (s : Str)
  | size (n : Nat)
  deriving DecidableEq, Repr

/-- One tuple `(тип, путь, имя, размер_или_тип, дата)` of `analyze`'s
result list. -/
structure Element where
  elem_type : ElemType
  path : Str
  name : Str
  size_or_type : SizeOrType
  mtime : Str
  deriving DecidableEq, Repr

/-- An `OSError` raised by `os.stat` during traversal. -/
inductive AErr where
  | statFailed (p : Str)
  deriving DecidableEq, Repr

/-- `FileSystemAnalyzer.get_file_info`: stat, then
`(basename, st_size, formatted mtime)`. -/
def get_file_info (broken : Str → Bool) (p : Str) (node : FSNode) :
    Except AErr (Str × Nat × Str) :=
  if broken p then .error (.statFailed p)
  else .ok (basename p, stSize node, formatTime (stMtime node))

/-- `FileSystemAnalyzer.get_folder_info`: stat, then
`(basename, "FOLDER", formatted mtime)`. -/
def get_folder_info (broken : Str → Bool) (p : Str) (node : FSNode) :
    Except AErr (Str × Str × Str) :=
  if broken p then .error (.statFailed p)
  else .ok (basename p, "FOLDER".data, formatTime (stMtime node))

/-- The body of `analyze`'s inner loop for one filename: skip symbolic
links silently; classify `.zip` names (case-insensitively) as
`zip_folder` via `get_folder_info`; otherwise emit a `file` element via
`get_file_info`. -/
def processFile (broken : Str → Bool) (d : Str) (nf : Str × FSNode) :
    Except AErr (List Element) :=
  if isLink nf.2 then .ok []
  else
    if endsWithZip nf.1 then
      match get_folder_info broken (joinP d nf.1) nf.2 with
      | .error e => .error e
      | .ok (n, k, m) => .ok [⟨.zip_folder, joinP d nf.1, n, .label k, m⟩]
    else
      match get_file_info broken (joinP d nf.1) nf.2 with
      | .error e => .error e
      | .ok (n, s, m) => .ok [⟨.file, joinP d nf.1, n, .size s, m⟩]

/-- `analyze`'s inner loop over the `filenames` of one walk triple. -/
def processFiles (broken : Str → Bool) (d : Str) :
    List (Str × FSNode) → Except AErr (List Element)
  | [] => .ok []
  | nf :: rest => do
      let e ← processFile broken d nf
      let r ← processFiles broken d rest
      .ok (e ++ r)

/-- `analyze`'s outer loop: for each walk triple, the folder element for
`dirpath` followed by the elements of its files; an `OSError` from any
stat aborts the whole call (the exception propagates). -/
def analyzeFrames (broken : Str → Bool) :
    List Frame → Except AErr (List Element)
  | [] => .ok []
  | f :: fs => do
      let i ← get_folder_info broken f.dirpath f.node
      let files ← processFiles broken f.dirpath f.files
      let rest ← analyzeFrames broken fs
      .ok (⟨.folder, f.dirpath, i.1, .label i.2.1, i.2.2⟩ :: (files ++ rest))

/-- `FileSystemAnalyzer.analyze(root_path)`. -/
def analyze (broken : Str → Bool) (rootPath : Str) (root : Option FSNode) :
    Except AErr (List Element) :=
  analyzeFrames broken (walkTop rootPath root)

/-- The stat model under which no listed entry disappears (no race). -/
def noBroken : Str → Bool := fun _ => false

instance {ε α : Type} [DecidableEq ε] [DecidableEq α] :
    DecidableEq (Except ε α) := fun a b =>
  match a, b with
  | .ok x, .ok y =>
      if h : x = y then .isTrue (by rw [h]) else .isFalse (by simp [h])
  | .error x, .error y =>
      if h : x = y then .isTrue (by rw [h]) else .isFalse (by simp [h])
  | .ok _, .error _ => .isFalse (by simp)
  | .error _, .ok _ => .isFalse (by simp)

/-- The elements the inner loop emits for one filename when no stat
fails. -/
def fileElemP (d : Str) (nf : Str × FSNode) : List Element :=
  if isLink nf.2 then []
  else if endsWithZip nf.1 then
    [⟨.zip_folder, joinP d nf.1, basename (joinP d nf.1),
      .label "FOLDER".data, formatTime (stMtime nf.2)⟩]
  else
    [⟨.file, joinP d nf.1, basename (joinP d nf.1),
      .size (stSize nf.2), formatTime (stMtime nf.2)⟩]

/-- The elements emitted for one walk triple when no stat fails. -/
def frameEls (f : Frame) : List Element :=
  ⟨.folder, f.dirpath, basename f.dirpath, .label "FOLDER".data,
    formatTime (stMtime f.node)⟩ :: f.files.flatMap (fileElemP f.dirpath)

/-- Elements produced below one node (the failure-free run of `analyze`
restricted to `walk p node`). -/
def elsP (p : Str) (node : FSNode) : List Element :=
  (walk p node).flatMap frameEls

/-- Elements produced by the recursion over a children list. -/
def elsC (p : Str) (ch : EntryList) : List Element :=
  (walkChildren p ch).flatMap frameEls

/-- A path tail that continues below an entry name: empty, or starting at
a separator. -/
def TailOk (t : Str) : Prop := t = [] ∨ ∃ t', t = '/' :: t'

/-- The first separator-free segment of a path. -/
def firstSeg (q : Str) : Str := q.takeWhile (fun c => c != '/')

/-- The folder element a frame contributes. -/
def folderEl (f : Frame) : Element :=
  ⟨.folder, f.dirpath, basename f.dirpath, .label "FOLDER".data,
    formatTime (stMtime f.node)⟩

/-- The shape of a file element's path relative to the directory `p`
holding it: one separator-free name below `p`, naming a non-link,
non-directory child. -/
def FileAt (p : Str) (l : List (Str × FSNode)) (q : Str) : Prop :=
  ∃ n c, (n, c) ∈ l ∧ goodName n = true ∧ isDirLike c = false ∧
    isLink c = false ∧ q = withSlash p ++ n

/-- The shape of a path lying inside the walked subtree of a real
subdirectory of `p`. -/
def SubAt (p : Str) (l : List (Str × FSNode)) (q : Str) : Prop :=
  ∃ n c t, (n, c) ∈ l ∧ goodName n = true ∧ isDirLike c = true ∧
    isLink c = false ∧ TailOk t ∧ q = withSlash p ++ (n ++ t)

/-- Children of a directory node (empty for non-directories). -/
def childPairs : FSNode → List (Str × FSNode)
  | .dir _ ch => ch.toList
  | _ => []

/-- A path one entry below the directory `d`. -/
def DirectChild (d q : Str) : Prop :=
  ∃ n, n ≠ [] ∧ '/' ∉ n ∧ q = withSlash d ++ n

/-! ### Writers

Each `Writer.write` opens the destination and renders the element list;
the rendered content (lines, rows, objects) is modelled structurally,
the byte serialization of the container formats (CSV text, JSON text,
DOCX/XLSX/PDF containers) being library behavior. -/

/-- The localized type column: `"Папка"` for folder-like rows
(`folder` and `zip_folder`), `"Файл"` otherwise. -/
def rowType (t : ElemType) : Str :=
  if t = .folder ∨ t = .zip_folder then "Папка".data else "Файл".data

/-- Folder-like test used by every writer's two-way branch. -/
def folderLike (t : ElemType) : Bool :=
  t == ElemType.folder || t == ElemType.zip_folder

/-- Rendering of the mixed `size_or_type` field by an f-string:
the label verbatim, or the decimal byte count. -/
def renderSOT : SizeOrType → Str
  | .label s => s
  | .size n => natStr n

/-- One CSV data row
`f"{row_type},{name},{size_or_type},{mtime}"` (no quoting/escaping). -/
def csvLine (e : Element) : Str :=
  rowType e.elem_type ++ ',' :: e.name ++ ',' :: renderSOT e.size_or_type
    ++ ',' :: e.mtime

/-- `CSVWriter.write`: the header line then one row per element. -/
def csvWrite (els : List Element) : List Str :=
  "Тип,Имя,Размер/Тип,Дата изменения".data :: els.map csvLine

/-- One object of the JSON array. -/
structure JsonObj where
  type : Str
  name : Str
  size_or_type : SizeOrType
  modification_time : Str
  deriving DecidableEq, Repr

/-- `JSONWriter.write`: the serialized array, one object per element. -/
def jsonWrite (els : List Element) : List JsonObj :=
  els.map (fun e =>
    ⟨if folderLike e.elem_type then "folder".data else "file".data,
      e.name, e.size_or_type, e.mtime⟩)

/-- One plain-text line, branching on the element kind. -/
def textLine (e : Element) : Str :=
  if folderLike e.elem_type then
    "Папка: ".data ++ e.name ++ " | Тип: ".data
      ++ renderSOT e.size_or_type ++ " | Дата изменения: ".data ++ e.mtime
  else
    "Файл: ".data ++ e.name ++ " | Размер: ".data
      ++ renderSOT e.size_or_type ++ " байт | Дата изменения: ".data
      ++ e.mtime

/-- `TextWriter.write`: one line per element. -/
def textWrite (els : List Element) : List Str := els.map textLine

/-- `DOCXWriter.write`: the heading and one paragraph per element; the
paragraph texts coincide with `TextWriter`'s lines (the code uses the
same two f-string templates). -/
def docxWrite (els : List Element) : Str × List Str :=
  ("Отчёт о структуре файлов и папок".data, els.map textLine)

/-- A spreadsheet cell: a string or a number (`ws.append` keeps the
mixed `size_or_type` value as is). -/
inductive Cell where
  | s (v : Str)
  | n (v : Nat)
  deriving DecidableEq, Repr

/-- The cell holding the mixed `size_or_type` value. -/
def sotCell : SizeOrType → Cell
  | .label s => .s s
  | .size n => .n n

/-- One worksheet row. -/
def xlsxRow (e : Element) : List Cell :=
  [.s (rowType e.elem_type), .s e.name, sotCell e.size_or_type, .s e.mtime]

/-- `XLSXWriter.write`: sheet title, header row and one row per
element. -/
def xlsxWrite (els : List Element) :
    Str × List Cell × List (List Cell) :=
  ("Отчёт о структуре файлов и папок".data,
    ["Тип".data, "Имя".data, "Размер/Тип".data, "Дата изменения".data].map
      Cell.s,
    els.map xlsxRow)

/-- The character class `[A-Za-z0-9._\- ()[\]{}]` of
`PDFWriter.write`'s `re.sub`. -/
def allowedChar (c : Char) : Bool :=
  ('A' ≤ c && c ≤ 'Z') || ('a' ≤ c && c ≤ 'z') || ('0' ≤ c && c ≤ '9') ||
    c == '.' || c == '_' || c == '-' || c == ' ' || c == '(' || c == ')' ||
    c == '[' || c == ']' || c == Char.ofNat 123 || c == Char.ofNat 125

/-- `re.sub(r"[^A-Za-z0-9._\- ()[\]{}]", "_", name)`: every character
outside the class becomes an underscore.  (The class is a single-character
negated set, so the substitution is a per-character map.) -/
def sanitize (s : Str) : Str :=
  s.map (fun c => if allowedChar c then c else '_')

/-- One PDF body line, using the sanitized name. -/
def pdfLine (e : Element) : Str :=
  if folderLike e.elem_type then
    "[DIR]  ".data ++ sanitize e.name ++ " | Modified: ".data ++ e.mtime
  else
    "[FILE] ".data ++ sanitize e.name ++ " | Size: ".data
      ++ renderSOT e.size_or_type ++ " bytes | Modified: ".data ++ e.mtime

/-- `PDFWriter.write`: the centered title and one wrapped line per
element. -/
def pdfWrite (els : List Element) : Str × List Str :=
  ("File Structure Report".data, els.map pdfLine)

/-! ### The report generator -/

/-- The writer variants registered in `ReportGenerator.__init__`. -/
inductive WriterKind where
  | csv
  | json
  | text
  | docx
  | xlsx
  | pdf
  deriving DecidableEq, Repr

/-- The `self.writers` registry, in insertion order. -/
def writerExts : List (Str × WriterKind) :=
  [(".csv".data, .csv), (".json".data, .json), (".txt".data, .text),
    (".log".data, .text), (".docx".data, .docx), (".xlsx".data, .xlsx),
    (".pdf".data, .pdf)]

/-- `self.writers.get(ext)`. -/
def lookupWriter (ext : Str) : Option WriterKind :=
  (writerExts.find? (fun kv => kv.1 == ext)).map (·.2)

/-- The rendered report handed to the destination file, by variant. -/
inductive Report where
  | csv (lines : List Str)
  | json (objs : List JsonObj)
  | text (lines : List Str)
  | docx (heading : Str) (paras : List Str)
  | xlsx (title : Str) (header : List Cell) (rows : List (List Cell))
  | pdf (title : Str) (lines : List Str)
  deriving DecidableEq, Repr

/-- Dispatch of `writer.write(elements, output_path)`'s rendering. -/
def render : WriterKind → List Element → Report
  | .csv, els => .csv (csvWrite els)
  | .json, els => .json (jsonWrite els)
  | .text, els => .text (textWrite els)
  | .docx, els => .docx (docxWrite els).1 (docxWrite els).2
  | .xlsx, els => .xlsx (xlsxWrite els).1 (xlsxWrite els).2.1
      (xlsxWrite els).2.2
  | .pdf, els => .pdf (pdfWrite els).1 (pdfWrite els).2

/-- Lexicographic order on strings by code point, as Python compares
them. -/
def lexLe : Str → Str → Bool
  | [], _ => true
  | _ :: _, [] => false
  | x :: xs, y :: ys => if x = y then lexLe xs ys else decide (x < y)

/-- Insertion into a sorted list. -/
def insertSorted (x : Str) : List Str → List Str
  | [] => [x]
  | y :: ys => if lexLe x y then x :: y :: ys else y :: insertSorted x ys

/-- `sorted(...)` on a list of strings. -/
def sortStrs : List Str → List Str
  | [] => []
  | x :: xs => insertSorted x (sortStrs xs)

/-- `", ".join(...)`. -/
def joinComma : List Str → Str
  | [] => []
  | [x] => x
  | x :: xs => x ++ ", ".data ++ joinComma xs

/-- `os.path.splitext(p)[1]`: the extension starting at the last dot of
the base name, empty when the base name has no dot besides leading
dots. -/
def splitext_ext (p : Str) : Str :=
  let b := basename p
  let rest := b.drop (b.takeWhile (fun c => c == '.')).length
  if decide ('.' ∈ rest) then
    '.' :: (rest.reverse.takeWhile (fun c => c != '.')).reverse
  else []

/-- `os.path.exists`: a stat that follows symlinks and swallows
failures. -/
def path_exists (broken : Str → Bool) (p : Str)
    (root : Option FSNode) : Bool :=
  root.isSome && !(broken p)

/-- The errors `ReportGenerator.generate` raises: `FileNotFoundError`,
`ValueError` for an unsupported extension, and a propagated traversal
`OSError`. -/
inductive GenError where
  | notFound (msg : Str)
  | unsupported (msg : Str)
  | ioFailure (e : AErr)
  deriving DecidableEq, Repr

/-- The observable side effects of one `generate` call, in order: the
traversal of the input tree, and the write of the rendered report to
the destination. -/
inductive Effect where
  | traverse (input : Str)
  | writeFile (dest : Str) (content : Report)
  deriving DecidableEq, Repr

/-- The message of the unsupported-extension `ValueError`. -/
def unsupportedMsg (ext : Str) : Str :=
  "Неподдерживаемое расширение: ".data ++ ext
    ++ ". Поддерживаются: ".data
    ++ joinComma (sortStrs (writerExts.map Prod.fst))

/-- `ReportGenerator.generate(input_path, output_path)`: validate the
input path, resolve the writer from the lowercased output extension,
run the analyzer, then the writer; paired with its effect trace. -/
def generateT (broken : Str → Bool) (inputPath : Str)
    (root : Option FSNode) (outputPath : Str) :
    Except GenError Unit × List Effect :=
  if path_exists broken inputPath root = false then
    (.error (.notFound ("Путь не существует: ".data ++ inputPath)), [])
  else
    match lookupWriter (lowerStr (splitext_ext outputPath)) with
    | none =>
        (.error (.unsupported
          (unsupportedMsg (lowerStr (splitext_ext outputPath)))), [])
    | some w =>
        match analyze broken inputPath root with
        | .error e => (.error (.ioFailure e), [.traverse inputPath])
        | .ok els =>
            (.ok (), [.traverse inputPath,
              .writeFile outputPath (render w els)])

/-! ### Fixtures for concrete evaluations -/

/-- A subdirectory holding one `.zip`-named file (mixed case). -/
def subW : FSNode := .dir 2 (.cons "ARCHIVE.Zip".data (.file 9 3) .nil)

/-- Children of the example root: a plain file, the subdirectory, a
symbolic link to a file with a `.zip` name, and a symbolic link to a
directory. -/
def chW : EntryList :=
  .cons "a.txt".data (.file 5 1)
    (.cons "sub".data subW
      (.cons "lnk.zip".data (.symlink false)
        (.cons "dlnk".data (.symlink true) .nil)))

/-- The example root tree. -/
def treeW : FSNode := .dir 7 chW

/-- The walk triple of the example root. -/
def frameW : Frame :=
  ⟨"/r".data, treeW, [("sub".data, subW), ("dlnk".data, .symlink true)],
    [("a.txt".data, .file 5 1), ("lnk.zip".data, .symlink false)]⟩

/-- The walk triple of the example subdirectory. -/
def frameW2 : Frame :=
  ⟨"/r/sub".data, subW, [], [("ARCHIVE.Zip".data, .file 9 3)]⟩

/-- A stat model in which the root's first file vanishes between
listing and stat. -/
def brokenW : Str → Bool := fun q => q == "/r/a.txt".data

/-- An element whose name is entirely non-ASCII apart from its
extension. -/
def eW : Element :=
  ⟨.file, "/r/日本語.txt".data, "日本語.txt".data, .size 3, "1".data⟩

/-! ### Failure-free characterization of `analyze` -/

theorem processFile_noBroken (d : Str) (nf : Str × FSNode) :
    processFile noBroken d nf = .ok (fileElemP d nf) := by
  unfold processFile fileElemP get_folder_info get_file_info noBroken
  by_cases h₁ : isLink nf.2 <;> by_cases h₂ : endsWithZip nf.1 <;> simp [h₁, h₂]

theorem processFiles_noBroken (d : Str) (l : List (Str × FSNode)) :
    processFiles noBroken d l = .ok (l.flatMap (fileElemP d)) := by
  induction l with
  | nil => rfl
  | cons nf rest ih =>
      simp [processFiles, processFile_noBroken, ih, List.flatMap_cons,
        Bind.bind, Except.bind]

theorem analyzeFrames_noBroken (fs : List Frame) :
    analyzeFrames noBroken fs = .ok (fs.flatMap frameEls) := by
  induction fs with
  | nil => rfl
  | cons f rest ih =>
      simp [analyzeFrames, get_folder_info, noBroken, processFiles_noBroken,
        ih, frameEls, List.flatMap_cons, Bind.bind, Except.bind]

/-- With no stat failures, `analyze` succeeds and returns exactly the
elements of the walked triples, in walk order. -/
theorem analyze_noBroken (p : Str) (root : Option FSNode) :
    analyze noBroken p root = .ok ((walkTop p root).flatMap frameEls) :=
  analyzeFrames_noBroken _

theorem walkTop_some (p : Str) (node : FSNode) (hp : p ≠ []) :
    walkTop p (some node) = walk p node := by
  simp [walkTop, hp]

theorem elsP_dir (p : Str) (m : Nat) (ch : EntryList) :
    elsP p (.dir m ch)
      = frameEls ⟨p, .dir m ch, ch.toList.filter (fun c => isDirLike c.2),
          ch.toList.filter (fun c => !isDirLike c.2)⟩ ++ elsC p ch := by
  simp [elsP, elsC, walk, List.flatMap_cons]

theorem elsP_file (p : Str) (s m : Nat) : elsP p (.file s m) = [] := rfl

theorem elsP_symlink (p : Str) (b : Bool) : elsP p (.symlink b) = [] := rfl

theorem elsC_nil (p : Str) : elsC p .nil = [] := rfl

theorem elsC_cons (p n : Str) (c : FSNode) (rest : EntryList) :
    elsC p (.cons n c rest)
      = (if isDirLike c && !isLink c then elsP (joinP p n) c else [])
          ++ elsC p rest := by
  by_cases h : isDirLike c && !isLink c <;>
    simp [elsC, elsP, walkChildren, h, List.flatMap_append]

/-! ### Path algebra

Every path the walk produces below a root `p` has the form
`withSlash p ++ n ++ t` where `n` is an entry name (separator-free,
non-empty) and the tail `t` is empty or starts with a separator.  The
lemmas here let such decompositions be cancelled and compared. -/

theorem goodName_iff {n : Str} : goodName n = true ↔ n ≠ [] ∧ '/' ∉ n := by
  simp [goodName]

theorem length_withSlash (p : Str) : p.length ≤ (withSlash p).length := by
  unfold withSlash
  split <;> simp

theorem withSlash_getLast (p : Str) : (withSlash p).getLast? = some '/' := by
  unfold withSlash
  split
  case isTrue h => simpa [endsWithSlash] using h
  case isFalse h => simp [List.getLast?_append]

theorem joinP_eq {p : Str} (n : Str) (hp : p ≠ []) :
    joinP p n = withSlash p ++ n := by
  unfold joinP withSlash
  split
  case isTrue h => exact absurd h hp
  case isFalse => split <;> simp

theorem endsWithSlash_append {l n : Str} (hn : n ≠ []) :
    endsWithSlash (l ++ n) = endsWithSlash n := by
  unfold endsWithSlash
  rw [List.getLast?_append]
  cases hg : n.getLast? with
  | none => exact absurd (List.getLast?_eq_none_iff.mp hg) hn
  | some c => simp

theorem endsWithSlash_of_goodName {n : Str} (h : goodName n = true) :
    endsWithSlash n = false := by
  obtain ⟨hne, hsl⟩ := goodName_iff.mp h
  unfold endsWithSlash
  cases hgl : n.getLast? with
  | none => rfl
  | some c =>
      obtain ⟨hh, hcc⟩ :=
        List.mem_getLast?_eq_getLast (l := n) (x := c) (Option.mem_def.mpr hgl)
      have hc : c ∈ n := hcc ▸ List.getLast_mem hh
      have : c ≠ '/' := by rintro rfl; exact hsl hc
      simpa using this

theorem withSlash_of_no_slash {q : Str} (h : endsWithSlash q = false) :
    withSlash q = q ++ ['/'] := by
  simp [withSlash, h]

theorem withSlash_join {p n : Str} (hn : goodName n = true) :
    withSlash (withSlash p ++ n) = withSlash p ++ n ++ ['/'] := by
  have h1 : endsWithSlash (withSlash p ++ n) = false := by
    rw [endsWithSlash_append (goodName_iff.mp hn).1]
    exact endsWithSlash_of_goodName hn
  exact withSlash_of_no_slash h1

theorem joinP_no_slash {d : Str} (n : Str) (hd : endsWithSlash d = false)
    (hne : d ≠ []) : joinP d n = d ++ '/' :: n := by
  simp [joinP, hd, hne]

theorem takeWhile_append_stop {pch : Char → Bool} {l : Str} (x : Char)
    (r : Str) (h : ∀ c ∈ l, pch c = true) (hx : pch x = false) :
    (l ++ x :: r).takeWhile pch = l := by
  induction l with
  | nil => simp [List.takeWhile_cons, hx]
  | cons a l ih =>
      have ha : pch a = true := h a (by simp)
      simp only [List.cons_append, List.takeWhile_cons, ha, if_true]
      rw [ih (fun c hc => h c (by simp [hc]))]

theorem takeWhile_all {pch : Char → Bool} {l : Str}
    (h : ∀ c ∈ l, pch c = true) : l.takeWhile pch = l := by
  induction l with
  | nil => rfl
  | cons a l ih =>
      have ha : pch a = true := h a (by simp)
      simp only [List.takeWhile_cons, ha, if_true]
      rw [ih (fun c hc => h c (by simp [hc]))]

theorem firstSeg_name_tail {n t : Str} (hn : '/' ∉ n) (ht : TailOk t) :
    firstSeg (n ++ t) = n := by
  have hall : ∀ c ∈ n, (c != '/') = true := by
    intro c hc
    have : c ≠ '/' := by rintro rfl; exact hn hc
    simpa using this
  cases ht with
  | inl h => subst h; simpa [firstSeg] using takeWhile_all hall
  | inr h =>
      obtain ⟨t', rfl⟩ := h
      exact takeWhile_append_stop '/' t' hall (by simp)

/-- Cancelling a common directory prefix: two name-plus-tail
decompositions of the same path agree on the name and on the tail. -/
theorem seg_cancel {a n₁ t₁ n₂ t₂ : Str}
    (h : a ++ (n₁ ++ t₁) = a ++ (n₂ ++ t₂))
    (h1 : '/' ∉ n₁) (ht1 : TailOk t₁) (h2 : '/' ∉ n₂) (ht2 : TailOk t₂) :
    n₁ = n₂ ∧ t₁ = t₂ := by
  have h' : n₁ ++ t₁ = n₂ ++ t₂ := List.append_cancel_left h
  have hn : n₁ = n₂ := by
    have := congrArg firstSeg h'
    rwa [firstSeg_name_tail h1 ht1, firstSeg_name_tail h2 ht2] at this
  subst hn
  exact ⟨rfl, List.append_cancel_left h'⟩

theorem tailOk_append_slash {t : Str} (r : Str) (ht : TailOk t) :
    TailOk (t ++ '/' :: r) := by
  cases ht with
  | inl h => subst h; exact .inr ⟨r, rfl⟩
  | inr h => obtain ⟨t', rfl⟩ := h; exact .inr ⟨t' ++ '/' :: r, rfl⟩

theorem length_lt_under (p : Str) {n : Str} (t : Str) (hn : n ≠ []) :
    p.length < (withSlash p ++ (n ++ t)).length := by
  have h1 : p.length ≤ (withSlash p).length := length_withSlash p
  have h2 : 0 < n.length := List.length_pos.mpr hn
  simp only [List.length_append]
  omega

theorem ne_of_under {p n t : Str} (hn : n ≠ []) :
    withSlash p ++ (n ++ t) ≠ p := by
  intro h
  have := length_lt_under p t hn
  rw [h] at this
  omega

theorem basename_of_join {p n : Str} (hp : p ≠ []) (hn : '/' ∉ n) :
    basename (joinP p n) = n := by
  rw [joinP_eq n hp]
  have hrev : ∃ r, (withSlash p).reverse = '/' :: r := by
    have h1 : (withSlash p).reverse.head? = some '/' := by
      rw [List.head?_reverse]
      exact withSlash_getLast p
    cases hr : (withSlash p).reverse with
    | nil => rw [hr] at h1; simp at h1
    | cons c r => rw [hr] at h1; simp at h1; exact ⟨r, by rw [h1]⟩
  obtain ⟨r, hr⟩ := hrev
  have hall : ∀ c ∈ n.reverse, (c != '/') = true := by
    intro c hc
    simp only [List.mem_reverse] at hc
    have : c ≠ '/' := by rintro rfl; exact hn hc
    simpa using this
  unfold basename
  rw [List.reverse_append, hr, takeWhile_append_stop '/' r hall (by simp),
    List.reverse_reverse]

/-! ### Structure of the emitted elements -/

theorem WF_dir_parts {m : Nat} {ch : EntryList} (h : WF (.dir m ch) = true) :
    (ch.toList.map Prod.fst).Nodup ∧ WFChildren ch = true := by
  simpa [WF] using h

theorem WFChildren_cons {n : Str} {c : FSNode} {rest : EntryList}
    (h : WFChildren (.cons n c rest) = true) :
    goodName n = true ∧ WF c = true ∧ WFChildren rest = true := by
  have h' : (goodName n = true ∧ WF c = true) ∧ WFChildren rest = true := by
    simpa [WFChildren] using h
  exact ⟨h'.1.1, h'.1.2, h'.2⟩

theorem WFChildren_mem : ∀ (ch : EntryList), WFChildren ch = true →
    ∀ (n : Str) (c : FSNode), (n, c) ∈ ch.toList →
      goodName n = true ∧ WF c = true
  | .nil, _, n, c, hm => by simp [EntryList.toList] at hm
  | .cons n₀ c₀ rest, h, n, c, hm => by
      obtain ⟨h₁, h₂, h₃⟩ := WFChildren_cons h
      simp only [EntryList.toList, List.mem_cons] at hm
      rcases hm with heq | hm
      · obtain ⟨rfl, rfl⟩ := Prod.mk.injEq .. ▸ heq
        exact ⟨h₁, h₂⟩
      · exact WFChildren_mem rest h₃ n c hm

theorem name_unique {l : List (Str × FSNode)}
    (hd : (l.map Prod.fst).Nodup) {n : Str} {a b : FSNode}
    (ha : (n, a) ∈ l) (hb : (n, b) ∈ l) : a = b := by
  have := List.inj_on_of_nodup_map hd ha hb rfl
  exact congrArg Prod.snd this

theorem mem_fileElems {d : Str} {files : List (Str × FSNode)} {e : Element}
    (h : e ∈ files.flatMap (fileElemP d)) :
    ∃ nf ∈ files, isLink nf.2 = false ∧ e.path = joinP d nf.1 ∧
      e.name = basename (joinP d nf.1) := by
  rcases List.mem_flatMap.mp h with ⟨nf, hnf, he⟩
  refine ⟨nf, hnf, ?_⟩
  unfold fileElemP at he
  by_cases h1 : isLink nf.2
  · simp [h1] at he
  · by_cases h2 : endsWithZip nf.1 <;> simp only [h1, h2] at he <;>
      simp only [Bool.false_eq_true, if_false, if_true, List.mem_singleton] at he <;>
      subst he <;> exact ⟨by simpa using h1, rfl, rfl⟩

theorem folderEl_mem_frameEls (f : Frame) : folderEl f ∈ frameEls f :=
  List.mem_cons_self _ _

theorem mem_frameEls {f : Frame} {e : Element} (h : e ∈ frameEls f) :
    e = folderEl f ∨
      ∃ nf ∈ f.files, isLink nf.2 = false ∧ e.path = joinP f.dirpath nf.1 ∧
        e.name = basename (joinP f.dirpath nf.1) := by
  unfold frameEls at h
  rcases List.mem_cons.mp h with h0 | h1
  · exact .inl h0
  · exact .inr (mem_fileElems h1)

mutual
/-- Every element emitted below `p` has the root path `p` itself, the
path of a direct non-link file child, or a path inside the walked
subtree of a real subdirectory. -/
theorem shape_node : ∀ (p : Str) (node : FSNode), p ≠ [] →
    WF node = true → ∀ e ∈ elsP p node,
      e.path = p ∨ FileAt p (childPairs node) e.path ∨
        SubAt p (childPairs node) e.path
  | p, .file s m, _, _, e, he => by rw [elsP_file] at he; cases he
  | p, .symlink b, _, _, e, he => by rw [elsP_symlink] at he; cases he
  | p, .dir m ch, hp, hwf, e, he => by
      rw [elsP_dir] at he
      rcases List.mem_append.mp he with h0 | hc
      · rcases mem_frameEls h0 with hfold | ⟨nf, hnf, hnl, hpath, _⟩
        · left; rw [hfold]; rfl
        · right; left
          have hmem : nf ∈ ch.toList := (List.mem_filter.mp hnf).1
          have hnd : (!isDirLike nf.2) = true := (List.mem_filter.mp hnf).2
          have hgn : goodName nf.1 = true :=
            (WFChildren_mem ch (WF_dir_parts hwf).2 nf.1 nf.2 hmem).1
          exact ⟨nf.1, nf.2, hmem, hgn, by simpa using hnd, hnl,
            by rw [hpath, joinP_eq _ hp]⟩
      · right; right
        simpa [childPairs] using
          shape_list p ch hp (WF_dir_parts hwf).2 e hc

/-- Every element emitted by the recursion over a children list lies
inside the walked subtree of one of the listed real subdirectories. -/
theorem shape_list : ∀ (p : Str) (ch : EntryList), p ≠ [] →
    WFChildren ch = true → ∀ e ∈ elsC p ch, SubAt p ch.toList e.path
  | p, .nil, _, _, e, he => by rw [elsC_nil] at he; cases he
  | p, .cons n c rest, hp, hwf, e, he => by
      obtain ⟨hgn, hwc, hwr⟩ := WFChildren_cons hwf
      have hmem0 : (n, c) ∈ (EntryList.cons n c rest).toList := by
        simp [EntryList.toList]
      rw [elsC_cons] at he
      rcases List.mem_append.mp he with hsub | hrest
      · by_cases hw : (isDirLike c && !isLink c) = true
        · rw [if_pos hw] at hsub
          have hdl : isDirLike c = true ∧ isLink c = false := by
            simpa using hw
          have hne : n ≠ [] := (goodName_iff.mp hgn).1
          have hp' : joinP p n ≠ [] := by
            rw [joinP_eq n hp]
            simp [hne]
          rcases shape_node (joinP p n) c hp' hwc e hsub with h1 | h2 | h3
          · exact ⟨n, c, [], hmem0, hgn, hdl.1, hdl.2, .inl rfl,
              by rw [h1, joinP_eq n hp]; simp⟩
          · obtain ⟨n', c', _, hgn', _, _, hq⟩ := h2
            refine ⟨n, c, '/' :: n', hmem0, hgn, hdl.1, hdl.2,
              .inr ⟨n', rfl⟩, ?_⟩
            rw [hq, joinP_eq n hp, withSlash_join hgn]
            simp
          · obtain ⟨n', c', t', _, _, _, _, _, hq⟩ := h3
            refine ⟨n, c, '/' :: (n' ++ t'), hmem0, hgn, hdl.1, hdl.2,
              .inr ⟨n' ++ t', rfl⟩, ?_⟩
            rw [hq, joinP_eq n hp, withSlash_join hgn]
            simp
        · rw [if_neg hw] at hsub; cases hsub
      · obtain ⟨n', c', t', hm', hrest'⟩ :=
          shape_list p rest hp hwr e hrest
        exact ⟨n', c', t', by simp [EntryList.toList, hm'], hrest'⟩
end

theorem filePaths_eq (d : Str) : ∀ (files : List (Str × FSNode)),
    (files.flatMap (fileElemP d)).map Element.path
      = (files.filter (fun nf => !isLink nf.2)).map (fun nf => joinP d nf.1)
  | [] => rfl
  | nf :: rest => by
      by_cases h1 : isLink nf.2
      · simp [fileElemP, h1, filePaths_eq d rest]
      · by_cases h2 : endsWithZip nf.1 <;>
          simp [fileElemP, h1, h2, filePaths_eq d rest]

theorem withSlash_ne_nil (p : Str) : withSlash p ≠ [] := by
  unfold withSlash
  split
  case isTrue h =>
    intro hc
    subst hc
    simp [endsWithSlash] at h
  case isFalse h => simp

theorem under_ne_nil (p x : Str) : withSlash p ++ x ≠ [] := by
  intro h
  exact withSlash_ne_nil p (List.append_eq_nil.mp h).1

theorem joinP_ne_root {p n : Str} (hp : p ≠ []) (hn : n ≠ []) :
    joinP p n ≠ p := by
  rw [joinP_eq n hp]
  intro h
  have h1 : p.length ≤ (withSlash p).length := length_withSlash p
  have h2 : 0 < n.length := List.length_pos.mpr hn
  have := congrArg List.length h
  simp only [List.length_append] at this
  omega

/-- Lifting a shape relative to the subdirectory `joinP p n` to a
name-and-tail decomposition relative to `p` itself. -/
theorem under_lift {p n q : Str} {l : List (Str × FSNode)} (hp : p ≠ [])
    (hgn : goodName n = true)
    (h : q = joinP p n ∨ FileAt (joinP p n) l q ∨ SubAt (joinP p n) l q) :
    ∃ t, TailOk t ∧ q = withSlash p ++ (n ++ t) := by
  rcases h with h1 | h2 | h3
  · exact ⟨[], .inl rfl, by rw [h1, joinP_eq n hp]; simp⟩
  · obtain ⟨n', c', _, _, _, _, hq⟩ := h2
    refine ⟨'/' :: n', .inr ⟨n', rfl⟩, ?_⟩
    rw [hq, joinP_eq n hp, withSlash_join hgn]
    simp
  · obtain ⟨n', c', t', _, _, _, _, _, hq⟩ := h3
    refine ⟨'/' :: (n' ++ t'), .inr ⟨n' ++ t', rfl⟩, ?_⟩
    rw [hq, joinP_eq n hp, withSlash_join hgn]
    simp

mutual
/-- All paths of the elements emitted below a well-formed node are
pairwise distinct. -/
theorem nodup_node : ∀ (p : Str) (node : FSNode), p ≠ [] →
    WF node = true → ((elsP p node).map Element.path).Nodup
  | p, .file s m, _, _ => by rw [elsP_file]; exact List.nodup_nil
  | p, .symlink b, _, _ => by rw [elsP_symlink]; exact List.nodup_nil
  | p, .dir m ch, hp, hwf => by
      obtain ⟨hd, hwc⟩ := WF_dir_parts hwf
      rw [elsP_dir, List.map_append]
      refine List.nodup_append.mpr ⟨?_, nodup_list p ch hp hwc hd, ?_⟩
      · -- the root's own frame: the dirpath plus the file paths
        show ((frameEls _).map Element.path).Nodup
        rw [frameEls]
        simp only [List.map_cons]
        rw [filePaths_eq]
        refine List.nodup_cons.mpr ⟨?_, ?_⟩
        · -- the root path is not a file path
          intro hmem
          obtain ⟨nf, hnf, heq⟩ := List.mem_map.mp hmem
          have hmem2 : nf ∈ ch.toList :=
            (List.mem_filter.mp (List.mem_filter.mp hnf).1).1
          have hgn := (WFChildren_mem ch hwc nf.1 nf.2 hmem2).1
          exact joinP_ne_root hp (goodName_iff.mp hgn).1 heq
        · -- the file paths are pairwise distinct
          have hsub : ((ch.toList.filter (fun c => !isDirLike c.2)).filter
              (fun nf => !isLink nf.2)).map Prod.fst
              |>.Sublist (ch.toList.map Prod.fst) :=
            ((List.filter_sublist _).trans (List.filter_sublist _)).map _
          have hnames : (((ch.toList.filter (fun c => !isDirLike c.2)).filter
              (fun nf => !isLink nf.2)).map Prod.fst).Nodup :=
            hd.sublist hsub
          have : (fun nf : Str × FSNode => joinP p nf.1)
              = (fun n => joinP p n) ∘ Prod.fst := rfl
          rw [this, ← List.map_map]
          refine hnames.map ?_
          intro a b hab
          have hab' : joinP p a = joinP p b := hab
          rw [joinP_eq a hp, joinP_eq b hp] at hab'
          exact List.append_cancel_left hab'
      · -- the root's frame paths are disjoint from the subtree paths
        intro q hq hq2
        obtain ⟨e2, he2, hpe2⟩ := List.mem_map.mp hq2
        have hsub := shape_list p ch hp hwc e2 he2
        obtain ⟨n', c', t', hm', hgn', hdl', hnl', ht', hq'⟩ := hsub
        rw [hpe2] at hq'
        show False
        rw [frameEls] at hq
        simp only [List.map_cons] at hq
        rcases List.mem_cons.mp hq with h0 | h1
        · -- the root path itself
          have hn' : n' ≠ [] := (goodName_iff.mp hgn').1
          exact ne_of_under hn' (h0 ▸ hq'.symm)
        · -- a file path of the root's frame
          rw [filePaths_eq] at h1
          obtain ⟨nf, hnf, heq⟩ := List.mem_map.mp h1
          have hmem2 : nf ∈ ch.toList :=
            (List.mem_filter.mp (List.mem_filter.mp hnf).1).1
          have hnd : (!isDirLike nf.2) = true :=
            (List.mem_filter.mp (List.mem_filter.mp hnf).1).2
          have hgn := (WFChildren_mem ch hwc nf.1 nf.2 hmem2).1
          have hcan : withSlash p ++ (nf.1 ++ []) = withSlash p ++ (n' ++ t') := by
            rw [List.append_nil, ← joinP_eq nf.1 hp, heq, hq']
          obtain ⟨hn12, _⟩ := seg_cancel hcan (goodName_iff.mp hgn).2
            (.inl rfl) (goodName_iff.mp hgn').2 ht'
          subst hn12
          have := name_unique hd hmem2 hm'
          rw [this] at hnd
          rw [hdl'] at hnd
          simp at hnd

/-- All paths of the elements emitted by the recursion over a children
list with distinct names are pairwise distinct. -/
theorem nodup_list : ∀ (p : Str) (ch : EntryList), p ≠ [] →
    WFChildren ch = true → (ch.toList.map Prod.fst).Nodup →
    ((elsC p ch).map Element.path).Nodup
  | p, .nil, _, _, _ => by rw [elsC_nil]; exact List.nodup_nil
  | p, .cons n c rest, hp, hwf, hd => by
      obtain ⟨hgn, hwc, hwr⟩ := WFChildren_cons hwf
      have hd' : n ∉ rest.toList.map Prod.fst ∧
          (rest.toList.map Prod.fst).Nodup := by
        rw [show (EntryList.cons n c rest).toList.map Prod.fst
            = n :: rest.toList.map Prod.fst by simp [EntryList.toList]] at hd
        exact List.nodup_cons.mp hd
      rw [elsC_cons, List.map_append]
      refine List.nodup_append.mpr ⟨?_, nodup_list p rest hp hwr hd'.2, ?_⟩
      · by_cases hw : (isDirLike c && !isLink c) = true
        · rw [if_pos hw]
          have hne : n ≠ [] := (goodName_iff.mp hgn).1
          have hp' : joinP p n ≠ [] := by rw [joinP_eq n hp]; simp [hne]
          exact nodup_node (joinP p n) c hp' hwc
        · rw [if_neg hw]; exact List.nodup_nil
      · intro q hq hq2
        by_cases hw : (isDirLike c && !isLink c) = true
        · rw [if_pos hw] at hq
          have hne : n ≠ [] := (goodName_iff.mp hgn).1
          have hp' : joinP p n ≠ [] := by rw [joinP_eq n hp]; simp [hne]
          obtain ⟨e1, he1, hpe1⟩ := List.mem_map.mp hq
          have hsh := shape_node (joinP p n) c hp' hwc e1 he1
          obtain ⟨t, ht, hqt⟩ := under_lift hp hgn (by rw [hpe1] at hsh; exact hsh)
          obtain ⟨e2, he2, hpe2⟩ := List.mem_map.mp hq2
          obtain ⟨n', c', t', hm', hgn', _, _, ht', hq'⟩ :=
            shape_list p rest hp hwr e2 he2
          rw [hpe2] at hq'
          have hcan : withSlash p ++ (n ++ t) = withSlash p ++ (n' ++ t') := by
            rw [← hqt, ← hq']
          obtain ⟨hn12, _⟩ := seg_cancel hcan (goodName_iff.mp hgn).2 ht
            (goodName_iff.mp hgn').2 ht'
          exact hd'.1 (hn12 ▸ List.mem_map.mpr ⟨(n', c'), hm', rfl⟩)
        · rw [if_neg hw] at hq
          simp at hq
end

theorem dirpath_mem_els {p : Str} {node : FSNode} {f : Frame}
    (hf : f ∈ walk p node) :
    f.dirpath ∈ (elsP p node).map Element.path :=
  List.mem_map.mpr
    ⟨folderEl f, List.mem_flatMap.mpr ⟨f, hf, folderEl_mem_frameEls f⟩, rfl⟩

mutual
/-- Every visited directory path other than the root ends in an entry
name, not in a separator. -/
theorem ends_node : ∀ (p : Str) (node : FSNode), p ≠ [] →
    WF node = true → ∀ D ∈ (walk p node).map Frame.dirpath,
      D = p ∨ endsWithSlash D = false
  | p, .file s m, _, _, D, hD => by simp [walk] at hD
  | p, .symlink b, _, _, D, hD => by simp [walk] at hD
  | p, .dir m ch, hp, hwf, D, hD => by
      rw [walk, List.map_cons] at hD
      rcases List.mem_cons.mp hD with h0 | h1
      · exact .inl h0
      · exact .inr (ends_list p ch hp (WF_dir_parts hwf).2 D h1)

/-- Every directory path visited below a children list ends in an entry
name. -/
theorem ends_list : ∀ (p : Str) (ch : EntryList), p ≠ [] →
    WFChildren ch = true → ∀ D ∈ (walkChildren p ch).map Frame.dirpath,
      endsWithSlash D = false
  | p, .nil, _, _, D, hD => by simp [walkChildren] at hD
  | p, .cons n c rest, hp, hwf, D, hD => by
      obtain ⟨hgn, hwc, hwr⟩ := WFChildren_cons hwf
      rw [walkChildren, List.map_append] at hD
      rcases List.mem_append.mp hD with hsub | hrest
      · by_cases hw : (isDirLike c && !isLink c) = true
        · rw [if_pos hw] at hsub
          have hne : n ≠ [] := (goodName_iff.mp hgn).1
          have hp' : joinP p n ≠ [] := by rw [joinP_eq n hp]; simp [hne]
          rcases ends_node (joinP p n) c hp' hwc D hsub with h0 | h1
          · subst h0
            rw [joinP_eq n hp, endsWithSlash_append hne]
            exact endsWithSlash_of_goodName hgn
          · exact h1
        · rw [if_neg hw] at hsub; simp at hsub
      · exact ends_list p rest hp hwr D hrest
end

mutual
/-- For every visited directory `D`, the emitted sequence splits as
`l₁ ++ folder-record-of-D :: l₂` where nothing in `l₁` has a path one
entry below `D`: the folder record precedes every record of a direct
entry of `D`. -/
theorem order_node : ∀ (p : Str) (node : FSNode), p ≠ [] →
    WF node = true → ∀ D ∈ (walk p node).map Frame.dirpath,
      ∃ l₁ r₀ l₂, elsP p node = l₁ ++ r₀ :: l₂ ∧
        r₀.elem_type = .folder ∧ r₀.path = D ∧
        ∀ e ∈ l₁, ¬ DirectChild D e.path
  | p, .file s m, _, _, D, hD => by simp [walk] at hD
  | p, .symlink b, _, _, D, hD => by simp [walk] at hD
  | p, .dir m ch, hp, hwf, D, hD => by
      obtain ⟨hd, hwc⟩ := WF_dir_parts hwf
      rw [walk, List.map_cons] at hD
      rcases List.mem_cons.mp hD with h0 | h1
      · -- the root itself: its folder record is the very first element
        refine ⟨[], folderEl ⟨p, .dir m ch,
          ch.toList.filter (fun c => isDirLike c.2),
          ch.toList.filter (fun c => !isDirLike c.2)⟩,
          (ch.toList.filter (fun c => !isDirLike c.2)).flatMap (fileElemP p)
            ++ elsC p ch, ?_, rfl, h0.symm, by simp⟩
        rw [elsP_dir, frameEls]
        simp [folderEl]
      · -- a deeper directory: split the subtree part, and check that
        -- nothing in the root's own frame lies one entry below D
        obtain ⟨⟨nP, cP, tP, hmP, hgnP, htP, hDP⟩, l₁, r₀, l₂, hsplit,
            hty, hpath, hl₁⟩ := order_list p ch hp hwc hd D h1
        have hDend : endsWithSlash D = false :=
          ends_list p ch hp hwc D h1
        refine ⟨frameEls ⟨p, .dir m ch,
          ch.toList.filter (fun c => isDirLike c.2),
          ch.toList.filter (fun c => !isDirLike c.2)⟩ ++ l₁, r₀, l₂, ?_,
          hty, hpath, ?_⟩
        · rw [elsP_dir, hsplit]
          simp
        · intro e he
          rcases List.mem_append.mp he with h0 | hmem
          · -- e is in the root's own frame
            intro ⟨n₂, hn₂, hsl₂, hq₂⟩
            have hq₂' : e.path = withSlash p ++ (nP ++ (tP ++ '/' :: n₂)) := by
              rw [hq₂, withSlash_of_no_slash hDend, hDP]
              simp
            have hnP : nP ≠ [] := (goodName_iff.mp hgnP).1
            rcases mem_frameEls h0 with hfold | ⟨nf, hnf, _, hpathf, _⟩
            · rw [hfold] at hq₂'
              exact ne_of_under hnP hq₂'.symm
            · have hmem2 : nf ∈ ch.toList := (List.mem_filter.mp hnf).1
              have hgn :=
                (WFChildren_mem ch hwc nf.1 nf.2 hmem2).1
              have hcan : withSlash p ++ (nf.1 ++ [])
                  = withSlash p ++ (nP ++ (tP ++ '/' :: n₂)) := by
                rw [List.append_nil, ← joinP_eq nf.1 hp, ← hpathf, hq₂']
              obtain ⟨_, hteq⟩ := seg_cancel hcan (goodName_iff.mp hgn).2
                (.inl rfl) (goodName_iff.mp hgnP).2
                (tailOk_append_slash n₂ htP)
              cases tP <;> simp at hteq
          · exact hl₁ e hmem

/-- The splitting of `order_node`, for the recursion over a children
list; the visited directory is also located below one of the listed
entries. -/
theorem order_list : ∀ (p : Str) (ch : EntryList), p ≠ [] →
    WFChildren ch = true → (ch.toList.map Prod.fst).Nodup →
    ∀ D ∈ (walkChildren p ch).map Frame.dirpath,
      (∃ n c t, (n, c) ∈ ch.toList ∧ goodName n = true ∧ TailOk t ∧
        D = withSlash p ++ (n ++ t)) ∧
      ∃ l₁ r₀ l₂, elsC p ch = l₁ ++ r₀ :: l₂ ∧
        r₀.elem_type = .folder ∧ r₀.path = D ∧
        ∀ e ∈ l₁, ¬ DirectChild D e.path
  | p, .nil, _, _, _, D, hD => by simp [walkChildren] at hD
  | p, .cons n c rest, hp, hwf, hd, D, hD => by
      obtain ⟨hgn, hwc, hwr⟩ := WFChildren_cons hwf
      have hd' : n ∉ rest.toList.map Prod.fst ∧
          (rest.toList.map Prod.fst).Nodup := by
        rw [show (EntryList.cons n c rest).toList.map Prod.fst
            = n :: rest.toList.map Prod.fst by simp [EntryList.toList]] at hd
        exact List.nodup_cons.mp hd
      have hmem0 : (n, c) ∈ (EntryList.cons n c rest).toList := by
        simp [EntryList.toList]
      rw [walkChildren, List.map_append] at hD
      rcases List.mem_append.mp hD with hsub | hrest
      · -- D lies in the walked subtree of the head entry
        by_cases hw : (isDirLike c && !isLink c) = true
        · rw [if_pos hw] at hsub
          have hne : n ≠ [] := (goodName_iff.mp hgn).1
          have hp' : joinP p n ≠ [] := by rw [joinP_eq n hp]; simp [hne]
          obtain ⟨f, hf, hfD⟩ := List.mem_map.mp hsub
          obtain ⟨eD, heD, hpeD⟩ :=
            List.mem_map.mp (dirpath_mem_els hf)
          have hshD := shape_node (joinP p n) c hp' hwc eD heD
          obtain ⟨tD, htD, hqD⟩ := under_lift hp hgn
            (by rw [hpeD, hfD] at hshD; exact hshD)
          obtain ⟨l₁, r₀, l₂, hsplit, hty, hpath, hl₁⟩ :=
            order_node (joinP p n) c hp' hwc D hsub
          refine ⟨⟨n, c, tD, hmem0, hgn, htD, hqD⟩,
            l₁, r₀, l₂ ++ elsC p rest, ?_, hty, hpath, hl₁⟩
          rw [elsC_cons, if_pos hw, hsplit]
          simp
        · rw [if_neg hw] at hsub; simp at hsub
      · -- D lies below a later sibling
        obtain ⟨⟨n', c', t', hm', hgn', ht', hD'⟩, l₁, r₀, l₂, hsplit,
            hty, hpath, hl₁⟩ := order_list p rest hp hwr hd'.2 D hrest
        have hDend : endsWithSlash D = false :=
          ends_list p rest hp hwr D hrest
        refine ⟨⟨n', c', t', by simp [EntryList.toList, hm'], hgn', ht', hD'⟩,
          (if isDirLike c && !isLink c then elsP (joinP p n) c else [])
            ++ l₁, r₀, l₂, ?_, hty, hpath, ?_⟩
        · rw [elsC_cons, hsplit]
          simp
        · intro e he
          rcases List.mem_append.mp he with h0 | hmem
          · -- e comes from the head entry's subtree
            by_cases hw : (isDirLike c && !isLink c) = true
            · rw [if_pos hw] at h0
              have hne : n ≠ [] := (goodName_iff.mp hgn).1
              have hp' : joinP p n ≠ [] := by rw [joinP_eq n hp]; simp [hne]
              intro ⟨n₂, hn₂, hsl₂, hq₂⟩
              have hsh := shape_node (joinP p n) c hp' hwc e h0
              obtain ⟨t, ht, hqt⟩ := under_lift hp hgn hsh
              have hq₂' : e.path
                  = withSlash p ++ (n' ++ (t' ++ '/' :: n₂)) := by
                rw [hq₂, withSlash_of_no_slash hDend, hD']
                simp
              have hcan : withSlash p ++ (n ++ t)
                  = withSlash p ++ (n' ++ (t' ++ '/' :: n₂)) := by
                rw [← hqt, ← hq₂']
              obtain ⟨hn12, _⟩ := seg_cancel hcan (goodName_iff.mp hgn).2 ht
                (goodName_iff.mp hgn').2 (tailOk_append_slash n₂ ht')
              exact hd'.1 (hn12 ▸ List.mem_map.mpr ⟨(n', c'), hm', rfl⟩)
            · rw [if_neg hw] at h0; simp at h0
          · exact hl₁ e hmem
end

mutual
/-- Every walked frame is a well-formed directory whose `dirs`/`files`
components are the `is_dir()` split of its children. -/
theorem frames_node : ∀ (p : Str) (node : FSNode), WF node = true →
    ∀ f ∈ walk p node, ∃ mf chf, f.node = .dir mf chf ∧
      f.dirs = chf.toList.filter (fun c => isDirLike c.2) ∧
      f.files = chf.toList.filter (fun c => !isDirLike c.2) ∧
      WF (.dir mf chf) = true
  | p, .file s m, _, f, hf => by simp [walk] at hf
  | p, .symlink b, _, f, hf => by simp [walk] at hf
  | p, .dir m ch, hwf, f, hf => by
      rw [walk] at hf
      rcases List.mem_cons.mp hf with h0 | h1
      · exact ⟨m, ch, by rw [h0], by rw [h0], by rw [h0], hwf⟩
      · exact frames_list p ch (WF_dir_parts hwf).2 f h1

/-- The frame invariant for the recursion over a children list. -/
theorem frames_list : ∀ (p : Str) (ch : EntryList), WFChildren ch = true →
    ∀ f ∈ walkChildren p ch, ∃ mf chf, f.node = .dir mf chf ∧
      f.dirs = chf.toList.filter (fun c => isDirLike c.2) ∧
      f.files = chf.toList.filter (fun c => !isDirLike c.2) ∧
      WF (.dir mf chf) = true
  | p, .nil, _, f, hf => by simp [walkChildren] at hf
  | p, .cons n c rest, hwf, f, hf => by
      obtain ⟨hgn, hwc, hwr⟩ := WFChildren_cons hwf
      rw [walkChildren] at hf
      rcases List.mem_append.mp hf with hsub | hrest
      · by_cases hw : (isDirLike c && !isLink c) = true
        · rw [if_pos hw] at hsub
          exact frames_node (joinP p n) c hwc f hsub
        · rw [if_neg hw] at hsub; cases hsub
      · exact frames_list p rest hwr f hrest
end

mutual
/-- A name that, within a visited directory, belongs neither to a
non-link file entry nor to a walked subdirectory never occurs as the
path of any emitted element.  (A symbolic-link entry of that directory
is such a name.) -/
theorem notin_node : ∀ (p : Str) (node : FSNode), p ≠ [] →
    WF node = true → ∀ f ∈ walk p node, ∀ n₀ : Str, goodName n₀ = true →
      (∀ c, (n₀, c) ∈ f.files → isLink c = true) →
      (∀ c, (n₀, c) ∈ f.dirs → isLink c = true) →
      joinP f.dirpath n₀ ∉ (elsP p node).map Element.path
  | p, .file s m, _, _, f, hf, _, _, _, _ => by simp [walk] at hf
  | p, .symlink b, _, _, f, hf, _, _, _, _ => by simp [walk] at hf
  | p, .dir m ch, hp, hwf, f, hf, n₀, hgn₀, hfiles, hdirs => by
      obtain ⟨hd, hwc⟩ := WF_dir_parts hwf
      have hn₀ : n₀ ≠ [] := (goodName_iff.mp hgn₀).1
      rw [walk] at hf
      rcases List.mem_cons.mp hf with h0 | h1
      · -- the frame is the root's own
        subst h0
        intro hmem
        obtain ⟨e, he, hpe⟩ := List.mem_map.mp hmem
        rcases shape_node p (.dir m ch) hp hwf e he with hroot | hfile | hsub
        · rw [hpe] at hroot
          exact joinP_ne_root hp hn₀ hroot
        · obtain ⟨n', c', hm', _, hdl', hnl', hq'⟩ := hfile
          rw [hpe] at hq'
          rw [joinP_eq n₀ hp] at hq'
          obtain rfl : n₀ = n' := List.append_cancel_left hq'
          have : isLink c' = true := hfiles c'
            (List.mem_filter.mpr ⟨hm', by simp [hdl']⟩)
          rw [hnl'] at this
          cases this
        · obtain ⟨n', c', t', hm', hgn', hdl', hnl', ht', hq'⟩ := hsub
          rw [hpe, joinP_eq n₀ hp] at hq'
          have hcan : withSlash p ++ (n₀ ++ [])
              = withSlash p ++ (n' ++ t') := by
            rw [List.append_nil]; exact hq'
          obtain ⟨rfl, _⟩ := seg_cancel hcan (goodName_iff.mp hgn₀).2
            (.inl rfl) (goodName_iff.mp hgn').2 ht'
          have : isLink c' = true := hdirs c'
            (List.mem_filter.mpr ⟨hm', by simp [hdl']⟩)
          rw [hnl'] at this
          cases this
      · -- the frame is in a subtree
        intro hmem
        obtain ⟨nD, cD, tD, hmD, hgnD, htD, hDq⟩ :=
          (order_list p ch hp hwc hd f.dirpath
            (List.mem_map.mpr ⟨f, h1, rfl⟩)).1
        have hDend : endsWithSlash f.dirpath = false :=
          ends_list p ch hp hwc f.dirpath (List.mem_map.mpr ⟨f, h1, rfl⟩)
        have hDne : f.dirpath ≠ [] := by
          intro hnil
          rw [hnil] at hDq
          exact under_ne_nil p _ hDq.symm
        have hq : joinP f.dirpath n₀
            = withSlash p ++ (nD ++ (tD ++ '/' :: n₀)) := by
          rw [joinP_no_slash n₀ hDend hDne, hDq]
          simp
        rw [elsP_dir] at hmem
        rw [List.map_append] at hmem
        rcases List.mem_append.mp hmem with hm0 | hm1
        · -- not among the root frame's paths
          rw [frameEls] at hm0
          simp only [List.map_cons] at hm0
          rcases List.mem_cons.mp hm0 with hroot | hfile
          · exact ne_of_under (goodName_iff.mp hgnD).1 (hq.symm.trans hroot)
          · rw [filePaths_eq] at hfile
            obtain ⟨nf, hnf, heq⟩ := List.mem_map.mp hfile
            have hmem2 : nf ∈ ch.toList :=
              (List.mem_filter.mp (List.mem_filter.mp hnf).1).1
            have hgnf := (WFChildren_mem ch hwc nf.1 nf.2 hmem2).1
            have hcan : withSlash p ++ (nf.1 ++ [])
                = withSlash p ++ (nD ++ (tD ++ '/' :: n₀)) := by
              rw [List.append_nil, ← joinP_eq nf.1 hp, heq, hq]
            obtain ⟨_, hteq⟩ := seg_cancel hcan (goodName_iff.mp hgnf).2
              (.inl rfl) (goodName_iff.mp hgnD).2
              (tailOk_append_slash n₀ htD)
            cases tD <;> simp at hteq
        · exact notin_list p ch hp hwc hd f h1 n₀ hgn₀ hfiles hdirs hm1

/-- The `notin_node` property for the recursion over a children list. -/
theorem notin_list : ∀ (p : Str) (ch : EntryList), p ≠ [] →
    WFChildren ch = true → (ch.toList.map Prod.fst).Nodup →
    ∀ f ∈ walkChildren p ch, ∀ n₀ : Str, goodName n₀ = true →
      (∀ c, (n₀, c) ∈ f.files → isLink c = true) →
      (∀ c, (n₀, c) ∈ f.dirs → isLink c = true) →
      joinP f.dirpath n₀ ∉ (elsC p ch).map Element.path
  | p, .nil, _, _, _, f, hf, _, _, _, _ => by simp [walkChildren] at hf
  | p, .cons n c rest, hp, hwf, hd, f, hf, n₀, hgn₀, hfiles, hdirs => by
      obtain ⟨hgn, hwc, hwr⟩ := WFChildren_cons hwf
      have hd' : n ∉ rest.toList.map Prod.fst ∧
          (rest.toList.map Prod.fst).Nodup := by
        rw [show (EntryList.cons n c rest).toList.map Prod.fst
            = n :: rest.toList.map Prod.fst by simp [EntryList.toList]] at hd
        exact List.nodup_cons.mp hd
      rw [walkChildren] at hf
      rw [elsC_cons]
      intro hmem
      rw [List.map_append] at hmem
      rcases List.mem_append.mp hf with hfsub | hfrest
      · -- the frame lies in the head entry's subtree
        by_cases hw : (isDirLike c && !isLink c) = true
        · rw [if_pos hw] at hfsub
          have hne : n ≠ [] := (goodName_iff.mp hgn).1
          have hp' : joinP p n ≠ [] := by rw [joinP_eq n hp]; simp [hne]
          -- decompose the frame's dirpath below the head entry
          obtain ⟨eD, heD, hpeD⟩ := List.mem_map.mp (dirpath_mem_els hfsub)
          obtain ⟨tf, htf, hqf0⟩ := under_lift hp hgn
            (shape_node (joinP p n) c hp' hwc eD heD)
          have hqf : f.dirpath = withSlash p ++ (n ++ tf) :=
            hpeD.symm.trans hqf0
          have hDend : endsWithSlash f.dirpath = false := by
            rcases ends_node (joinP p n) c hp' hwc f.dirpath
                (List.mem_map.mpr ⟨f, hfsub, rfl⟩) with h0 | h1
            · rw [h0, joinP_eq n hp, endsWithSlash_append hne]
              exact endsWithSlash_of_goodName hgn
            · exact h1
          have hDne : f.dirpath ≠ [] := by
            intro hnil
            rw [hnil] at hqf
            exact under_ne_nil p _ hqf.symm
          have hq : joinP f.dirpath n₀
              = withSlash p ++ (n ++ (tf ++ '/' :: n₀)) := by
            rw [joinP_no_slash n₀ hDend hDne, hqf]
            simp
          rcases List.mem_append.mp hmem with hm0 | hm1
          · rw [if_pos hw] at hm0
            exact notin_node (joinP p n) c hp' hwc f hfsub n₀ hgn₀
              hfiles hdirs hm0
          · obtain ⟨e2, he2, hpe2⟩ := List.mem_map.mp hm1
            obtain ⟨n', c', t', hm', hgn', _, _, ht', hq'⟩ :=
              shape_list p rest hp hwr e2 he2
            rw [hpe2, hq] at hq'
            obtain ⟨hn12, _⟩ := seg_cancel hq'
              (goodName_iff.mp hgn).2 (tailOk_append_slash n₀ htf)
              (goodName_iff.mp hgn').2 ht'
            exact hd'.1 (hn12 ▸ List.mem_map.mpr ⟨(n', c'), hm', rfl⟩)
        · rw [if_neg hw] at hfsub; cases hfsub
      · -- the frame lies below a later sibling
        obtain ⟨nD, cD, tD, hmD, hgnD, htD, hDq⟩ :=
          (order_list p rest hp hwr hd'.2 f.dirpath
            (List.mem_map.mpr ⟨f, hfrest, rfl⟩)).1
        have hDend : endsWithSlash f.dirpath = false :=
          ends_list p rest hp hwr f.dirpath
            (List.mem_map.mpr ⟨f, hfrest, rfl⟩)
        have hDne : f.dirpath ≠ [] := by
          intro hnil
          rw [hnil] at hDq
          exact under_ne_nil p _ hDq.symm
        have hq : joinP f.dirpath n₀
            = withSlash p ++ (nD ++ (tD ++ '/' :: n₀)) := by
          rw [joinP_no_slash n₀ hDend hDne, hDq]
          simp
        rcases List.mem_append.mp hmem with hm0 | hm1
        · by_cases hw : (isDirLike c && !isLink c) = true
          · rw [if_pos hw] at hm0
            have hne : n ≠ [] := (goodName_iff.mp hgn).1
            have hp' : joinP p n ≠ [] := by rw [joinP_eq n hp]; simp [hne]
            obtain ⟨e1, he1, hpe1⟩ := List.mem_map.mp hm0
            obtain ⟨t, ht, hqt0⟩ := under_lift hp hgn
              (shape_node (joinP p n) c hp' hwc e1 he1)
            have hqt : withSlash p ++ (nD ++ (tD ++ '/' :: n₀))
                = withSlash p ++ (n ++ t) :=
              hq.symm.trans (hpe1.symm.trans hqt0)
            obtain ⟨hn12, _⟩ := seg_cancel hqt
              (goodName_iff.mp hgnD).2 (tailOk_append_slash n₀ htD)
              (goodName_iff.mp hgn).2 ht
            exact hd'.1 (hn12.symm ▸ List.mem_map.mpr ⟨(nD, cD), hmD, rfl⟩)
          · rw [if_neg hw] at hm0; simp at hm0
        · exact notin_list p rest hp hwr hd'.2 f hfrest n₀ hgn₀
            hfiles hdirs hm1
end

/-- Two emitted elements with the same path are the same element. -/
theorem path_inj {p : Str} {node : FSNode} (hp : p ≠ [])
    (hwf : WF node = true) {e1 e2 : Element} (h1 : e1 ∈ elsP p node)
    (h2 : e2 ∈ elsP p node) (he : e1.path = e2.path) : e1 = e2 :=
  List.inj_on_of_nodup_map (nodup_node p node hp hwf) h1 h2 he

theorem countP_path_le_one (D : Str) : ∀ (l : List Element),
    (l.map Element.path).Nodup →
    l.countP (fun e => e.elem_type == ElemType.folder && e.path == D) ≤ 1
  | [], _ => by simp
  | e :: l, hnd => by
      rw [List.map_cons, List.nodup_cons] at hnd
      rw [List.countP_cons]
      by_cases h : (e.elem_type == ElemType.folder && e.path == D) = true
      · have hD : e.path = D := by
          have : (e.path == D) = true := by
            rcases Bool.and_eq_true_iff.mp h with ⟨_, h2⟩
            exact h2
          exact eq_of_beq this
        have hzero : l.countP
            (fun e2 => e2.elem_type == ElemType.folder && e2.path == D)
              = 0 := by
          rw [List.countP_eq_zero]
          intro a ha hpa
          have haD : a.path = D := by
            rcases Bool.and_eq_true_iff.mp hpa with ⟨_, h2⟩
            exact eq_of_beq h2
          exact hnd.1 (List.mem_map.mpr ⟨a, ha, haD.trans hD.symm⟩)
        simp [h, hzero]
      · have hle := countP_path_le_one D l hnd.2
        have hff : (e.elem_type == ElemType.folder && e.path == D)
            = false := by
          cases hh : (e.elem_type == ElemType.folder && e.path == D)
          · rfl
          · exact absurd hh h
        rw [hff]
        simpa using hle

/-- Every emitted element's `name` is the base name of its `path`, as
both info helpers compute it from the stat'ed path. -/
theorem name_eq_basename {p : Str} {node : FSNode} {e : Element}
    (he : e ∈ elsP p node) : e.name = basename e.path := by
  obtain ⟨f, _, hef⟩ := List.mem_flatMap.mp he
  rcases mem_frameEls hef with h0 | ⟨nf, _, _, hpath, hname⟩
  · rw [h0]; rfl
  · rw [hname, hpath]

mutual
/-- Every emitted element's path is the root or a join of some
directory path with an entry name. -/
theorem leaf_node : ∀ (p : Str) (node : FSNode), p ≠ [] →
    WF node = true → ∀ e ∈ elsP p node,
      e.path = p ∨ ∃ x y, x ≠ [] ∧ goodName y = true ∧ e.path = joinP x y
  | p, .file s m, _, _, e, he => by rw [elsP_file] at he; cases he
  | p, .symlink b, _, _, e, he => by rw [elsP_symlink] at he; cases he
  | p, .dir m ch, hp, hwf, e, he => by
      obtain ⟨hd, hwc⟩ := WF_dir_parts hwf
      rw [elsP_dir] at he
      rcases List.mem_append.mp he with h0 | hc
      · rcases mem_frameEls h0 with hfold | ⟨nf, hnf, _, hpath, _⟩
        · left; rw [hfold]; rfl
        · right
          have hmem : nf ∈ ch.toList := (List.mem_filter.mp hnf).1
          exact ⟨p, nf.1, hp,
            (WFChildren_mem ch hwc nf.1 nf.2 hmem).1, hpath⟩
      · exact .inr (leaf_list p ch hp hwc e hc)

/-- The `leaf_node` property for the recursion over a children list. -/
theorem leaf_list : ∀ (p : Str) (ch : EntryList), p ≠ [] →
    WFChildren ch = true → ∀ e ∈ elsC p ch,
      ∃ x y, x ≠ [] ∧ goodName y = true ∧ e.path = joinP x y
  | p, .nil, _, _, e, he => by rw [elsC_nil] at he; cases he
  | p, .cons n c rest, hp, hwf, e, he => by
      obtain ⟨hgn, hwc, hwr⟩ := WFChildren_cons hwf
      rw [elsC_cons] at he
      rcases List.mem_append.mp he with hsub | hrest
      · by_cases hw : (isDirLike c && !isLink c) = true
        · rw [if_pos hw] at hsub
          have hne : n ≠ [] := (goodName_iff.mp hgn).1
          have hp' : joinP p n ≠ [] := by rw [joinP_eq n hp]; simp [hne]
          rcases leaf_node (joinP p n) c hp' hwc e hsub with h0 | h1
          · exact ⟨p, n, hp, hgn, h0⟩
          · exact h1
        · rw [if_neg hw] at hsub; cases hsub
      · exact leaf_list p rest hp hwr e hrest
end

/-! ### The claims -/

/-- C1.  For every traversal root and every directory `D` visited by
`FileSystemAnalyzer.analyze`, exactly one folder record for `D` appears
in the returned sequence, and it appears before the record of every
entry directly contained in `D`: the sequence splits as
`l₁ ++ folder-record-of-D :: l₂` where no element of `l₁` has a path one
entry below `D` (pre-order). -/
theorem c1_folder_preorder (p : Str) (node : FSNode) (hp : p ≠ [])
    (hwf : WF node = true) (D : Str)
    (hD : D ∈ (walkTop p (some node)).map Frame.dirpath) :
    ∃ els, analyze noBroken p (some node) = .ok els ∧
      els.countP (fun e => e.elem_type == ElemType.folder && e.path == D)
        = 1 ∧
      ∃ l₁ r₀ l₂, els = l₁ ++ r₀ :: l₂ ∧ r₀.elem_type = .folder ∧
        r₀.path = D ∧ ∀ e ∈ l₁, ¬ DirectChild D e.path := by
  rw [walkTop_some p node hp] at hD
  refine ⟨elsP p node, ?_, ?_, order_node p node hp hwf D hD⟩
  · rw [analyze_noBroken, walkTop_some p node hp]; rfl
  · obtain ⟨f, hf, hfD⟩ := List.mem_map.mp hD
    have hmem : folderEl f ∈ elsP p node :=
      List.mem_flatMap.mpr ⟨f, hf, folderEl_mem_frameEls f⟩
    have hge : 0 < (elsP p node).countP
        (fun e => e.elem_type == ElemType.folder && e.path == D) :=
      List.countP_pos_iff.mpr ⟨folderEl f, hmem, by simp [folderEl, hfD]⟩
    have hle := countP_path_le_one D (elsP p node)
      (nodup_node p node hp hwf)
    omega

/-- C3.  A direct file entry that is a symbolic link is skipped: the
traversal succeeds (no error is raised for it) and no emitted element
carries its path; consequently no writer, all of which render the
element list alone, can show it. -/
theorem c3_symlink_file_skipped (p : Str) (node : FSNode) (hp : p ≠ [])
    (hwf : WF node = true) (f : Frame) (hf : f ∈ walkTop p (some node))
    (n₀ : Str) (hmem : (n₀, FSNode.symlink false) ∈ f.files) :
    ∃ els, analyze noBroken p (some node) = .ok els ∧
      ∀ e ∈ els, e.path ≠ joinP f.dirpath n₀ := by
  rw [walkTop_some p node hp] at hf
  obtain ⟨mf, chf, hfnode, hfdirs, hffiles, hfwf⟩ :=
    frames_node p node hwf f hf
  obtain ⟨hdf, hwcf⟩ := WF_dir_parts hfwf
  have hmemc : (n₀, FSNode.symlink false) ∈ chf.toList := by
    rw [hffiles] at hmem
    exact (List.mem_filter.mp hmem).1
  have hgn₀ : goodName n₀ = true :=
    (WFChildren_mem chf hwcf n₀ (.symlink false) hmemc).1
  have huniq : ∀ c, (n₀, c) ∈ chf.toList → c = .symlink false :=
    fun c hc => name_unique hdf hc hmemc
  have hfiles : ∀ c, (n₀, c) ∈ f.files → isLink c = true := by
    intro c hc
    rw [hffiles] at hc
    rw [huniq c (List.mem_filter.mp hc).1]
    rfl
  have hdirs : ∀ c, (n₀, c) ∈ f.dirs → isLink c = true := by
    intro c hc
    rw [hfdirs] at hc
    rw [huniq c (List.mem_filter.mp hc).1]
    rfl
  have hnotin :=
    notin_node p node hp hwf f hf n₀ hgn₀ hfiles hdirs
  refine ⟨elsP p node,
    by rw [analyze_noBroken, walkTop_some p node hp]; rfl, ?_⟩
  intro e he hpe
  exact hnotin (List.mem_map.mpr ⟨e, he, hpe⟩)

/-- C4.  A non-link direct file entry is emitted exactly once: as a
`zip_folder` element with the `"FOLDER"` label when its name ends in
`.zip` under any letter case, and as a `file` element with its byte
size otherwise. -/
theorem c4_zip_classification (p : Str) (node : FSNode) (hp : p ≠ [])
    (hwf : WF node = true) (f : Frame) (hf : f ∈ walkTop p (some node))
    (n₀ : Str) (c₀ : FSNode) (hmem : (n₀, c₀) ∈ f.files)
    (hnl : isLink c₀ = false) :
    ∃ els e, analyze noBroken p (some node) = .ok els ∧ e ∈ els ∧
      e.path = joinP f.dirpath n₀ ∧
      (∀ e2 ∈ els, e2.path = joinP f.dirpath n₀ → e2 = e) ∧
      (endsWithZip n₀ = true →
        e.elem_type = .zip_folder ∧
          e.size_or_type = .label "FOLDER".data) ∧
      (endsWithZip n₀ = false →
        e.elem_type = .file ∧ e.size_or_type = .size (stSize c₀)) := by
  rw [walkTop_some p node hp] at hf
  have hnot : ¬ (isLink (n₀, c₀).2 = true) := by simp [hnl]
  by_cases hz : endsWithZip n₀ = true
  · -- a `.zip` name: the `zip_folder` element
    refine ⟨elsP p node,
      ⟨.zip_folder, joinP f.dirpath n₀, basename (joinP f.dirpath n₀),
        .label "FOLDER".data, formatTime (stMtime c₀)⟩, ?_, ?_, rfl,
      ?_, fun _ => ⟨rfl, rfl⟩,
      (fun (hcontra : endsWithZip n₀ = false) => by
        rw [hcontra] at hz
        cases hz)⟩
    · rw [analyze_noBroken, walkTop_some p node hp]; rfl
    · have hee : fileElemP f.dirpath (n₀, c₀)
          = [⟨.zip_folder, joinP f.dirpath n₀,
              basename (joinP f.dirpath n₀), .label "FOLDER".data,
              formatTime (stMtime c₀)⟩] := by
        unfold fileElemP
        rw [if_neg hnot, if_pos hz]
      refine List.mem_flatMap.mpr ⟨f, hf, ?_⟩
      rw [frameEls]
      refine List.mem_cons_of_mem _
        (List.mem_flatMap.mpr ⟨(n₀, c₀), hmem, ?_⟩)
      rw [hee]
      exact List.mem_singleton.mpr rfl
    · intro e2 he2 hp2
      refine path_inj hp hwf he2 ?_ hp2
      have hee : fileElemP f.dirpath (n₀, c₀)
          = [⟨.zip_folder, joinP f.dirpath n₀,
              basename (joinP f.dirpath n₀), .label "FOLDER".data,
              formatTime (stMtime c₀)⟩] := by
        unfold fileElemP
        rw [if_neg hnot, if_pos hz]
      refine List.mem_flatMap.mpr ⟨f, hf, ?_⟩
      rw [frameEls]
      refine List.mem_cons_of_mem _
        (List.mem_flatMap.mpr ⟨(n₀, c₀), hmem, ?_⟩)
      rw [hee]
      exact List.mem_singleton.mpr rfl
  · -- any other name: the `file` element with the byte size
    have hz' : endsWithZip n₀ = false := by
      cases hzz : endsWithZip n₀
      · rfl
      · exact absurd hzz hz
    refine ⟨elsP p node,
      ⟨.file, joinP f.dirpath n₀, basename (joinP f.dirpath n₀),
        .size (stSize c₀), formatTime (stMtime c₀)⟩, ?_, ?_, rfl,
      ?_, (fun (hcontra : endsWithZip n₀ = true) => by
        rw [hcontra] at hz'
        cases hz'),
      fun _ => ⟨rfl, rfl⟩⟩
    · rw [analyze_noBroken, walkTop_some p node hp]; rfl
    · have hee : fileElemP f.dirpath (n₀, c₀)
          = [⟨.file, joinP f.dirpath n₀, basename (joinP f.dirpath n₀),
              .size (stSize c₀), formatTime (stMtime c₀)⟩] := by
        unfold fileElemP
        rw [if_neg hnot, if_neg (by simp [hz'])]
      refine List.mem_flatMap.mpr ⟨f, hf, ?_⟩
      rw [frameEls]
      refine List.mem_cons_of_mem _
        (List.mem_flatMap.mpr ⟨(n₀, c₀), hmem, ?_⟩)
      rw [hee]
      exact List.mem_singleton.mpr rfl
    · intro e2 he2 hp2
      refine path_inj hp hwf he2 ?_ hp2
      have hee : fileElemP f.dirpath (n₀, c₀)
          = [⟨.file, joinP f.dirpath n₀, basename (joinP f.dirpath n₀),
              .size (stSize c₀), formatTime (stMtime c₀)⟩] := by
        unfold fileElemP
        rw [if_neg hnot, if_neg (by simp [hz'])]
      refine List.mem_flatMap.mpr ⟨f, hf, ?_⟩
      rw [frameEls]
      refine List.mem_cons_of_mem _
        (List.mem_flatMap.mpr ⟨(n₀, c₀), hmem, ?_⟩)
      rw [hee]
      exact List.mem_singleton.mpr rfl

/-- C5 amended.  Every emitted element's `name` is the base name of its
path; the record for the traversal root itself uses the root path's own
base name (which is empty exactly when the root path ends in a
separator, see the counterexample), and every non-root record has a
non-empty name. -/
theorem c5_names_amended (p : Str) (node : FSNode) (hp : p ≠ [])
    (hwf : WF node = true) :
    ∃ els, analyze noBroken p (some node) = .ok els ∧
      (∀ e ∈ els, e.name = basename e.path) ∧
      (∀ e ∈ els, e.path = p → e.name = basename p) ∧
      (∀ e ∈ els, e.path = p ∨ e.name ≠ []) := by
  refine ⟨elsP p node,
    by rw [analyze_noBroken, walkTop_some p node hp]; rfl, ?_, ?_, ?_⟩
  · exact fun e he => name_eq_basename he
  · intro e he hroot
    rw [name_eq_basename he, hroot]
  · intro e he
    rcases leaf_node p node hp hwf e he with h0 | ⟨x, y, hx, hgy, hxy⟩
    · exact .inl h0
    · right
      rw [name_eq_basename he, hxy,
        basename_of_join hx (goodName_iff.mp hgy).2]
      exact (goodName_iff.mp hgy).1

/-- C6 amended.  A symbolic link to a directory is listed among the
subdirectory names but is not followed and yields no record: no walked
frame and no emitted element carries its path (`os.walk`'s default is
`followlinks=False`), so cyclic symlinked directories cannot cause
infinite traversal. -/
theorem c6_symlink_dir_not_followed (p : Str) (node : FSNode)
    (hp : p ≠ []) (hwf : WF node = true) (f : Frame)
    (hf : f ∈ walkTop p (some node)) (n₀ : Str)
    (hmem : (n₀, FSNode.symlink true) ∈ f.dirs) :
    ∃ els, analyze noBroken p (some node) = .ok els ∧
      (∀ e ∈ els, e.path ≠ joinP f.dirpath n₀) ∧
      (∀ g ∈ walkTop p (some node), g.dirpath ≠ joinP f.dirpath n₀) := by
  rw [walkTop_some p node hp] at hf
  obtain ⟨mf, chf, hfnode, hfdirs, hffiles, hfwf⟩ :=
    frames_node p node hwf f hf
  obtain ⟨hdf, hwcf⟩ := WF_dir_parts hfwf
  have hmemc : (n₀, FSNode.symlink true) ∈ chf.toList := by
    rw [hfdirs] at hmem
    exact (List.mem_filter.mp hmem).1
  have hgn₀ : goodName n₀ = true :=
    (WFChildren_mem chf hwcf n₀ (.symlink true) hmemc).1
  have huniq : ∀ c, (n₀, c) ∈ chf.toList → c = .symlink true :=
    fun c hc => name_unique hdf hc hmemc
  have hfiles : ∀ c, (n₀, c) ∈ f.files → isLink c = true := by
    intro c hc
    rw [hffiles] at hc
    rw [huniq c (List.mem_filter.mp hc).1]
    rfl
  have hdirs : ∀ c, (n₀, c) ∈ f.dirs → isLink c = true := by
    intro c hc
    rw [hfdirs] at hc
    rw [huniq c (List.mem_filter.mp hc).1]
    rfl
  have hnotin :=
    notin_node p node hp hwf f hf n₀ hgn₀ hfiles hdirs
  have habs : ∀ e ∈ elsP p node, e.path ≠ joinP f.dirpath n₀ :=
    fun e he hpe => hnotin (List.mem_map.mpr ⟨e, he, hpe⟩)
  refine ⟨elsP p node,
    by rw [analyze_noBroken, walkTop_some p node hp]; rfl, habs, ?_⟩
  intro g hg
  rw [walkTop_some p node hp] at hg
  obtain ⟨eg, heg, hpeg⟩ := List.mem_map.mp (dirpath_mem_els hg)
  intro hcontra
  exact habs eg heg (hpeg.trans hcontra)

/-- C2 counterexample.  A regular-file root exists and can be stat'ed
(`generate`'s existence check passes), yet `analyze` returns the empty
sequence: emptiness is not equivalent to an unstatable root. -/
theorem c2_statable_root_counterexample :
    path_exists noBroken "/f".data (some (FSNode.file 5 0)) = true ∧
    analyze noBroken "/f".data (some (FSNode.file 5 0)) = .ok [] :=
  ⟨rfl, rfl⟩

/-- C2 amended.  `analyze` returns the empty sequence exactly when the
root path cannot be listed as a directory: when it does not exist (a
dangling symbolic link included), or when it resolves — `os.scandir`
follows a final symbolic link — to a non-directory.  For every root
resolving to a directory the sequence begins with the root's own folder
record, and an empty directory yields exactly that one record. -/
theorem c2_empty_iff_unlistable (p : Str) (hp : p ≠ []) :
    (∀ broken, analyze broken p none = .ok []) ∧
    (∀ s m, analyze noBroken p (some (.file s m)) = .ok []) ∧
    (∀ m ch, ∃ rest, analyze noBroken p (some (.dir m ch))
      = .ok (⟨.folder, p, basename p, .label "FOLDER".data,
          formatTime m⟩ :: rest)) ∧
    (∀ m, analyze noBroken p (some (.dir m .nil))
      = .ok [⟨.folder, p, basename p, .label "FOLDER".data,
          formatTime m⟩]) := by
  refine ⟨fun broken => rfl, fun s m => ?_, fun m ch => ?_, fun m => ?_⟩
  · rw [analyze_noBroken, walkTop_some p _ hp]; rfl
  · refine ⟨(ch.toList.filter (fun c => !isDirLike c.2)).flatMap
      (fileElemP p) ++ elsC p ch, ?_⟩
    rw [analyze_noBroken, walkTop_some p _ hp]
    show Except.ok (elsP p (.dir m ch)) = _
    rw [elsP_dir, frameEls]
    rfl
  · rw [analyze_noBroken, walkTop_some p _ hp]
    show Except.ok (elsP p (.dir m .nil)) = _
    rw [elsP_dir, frameEls]
    rfl

/-- C5 counterexample.  `generate` accepts the root path `/` (it
exists), and the emitted root record's name — the base name of `/` — is
the empty string: `name` is not always non-empty. -/
theorem c5_root_name_empty_counterexample :
    path_exists noBroken "/".data (some (FSNode.dir 0 .nil)) = true ∧
    analyze noBroken "/".data (some (FSNode.dir 0 .nil))
      = .ok [⟨.folder, "/".data, [], .label "FOLDER".data, "0".data⟩] :=
  ⟨rfl, by decide⟩

/-- C6 counterexample.  For a root whose only entry is a symbolic link
to a directory, the walk visits only the root and the output holds only
the root's folder record: the symlinked directory is neither recorded
nor traversed, contradicting the claim that it is followed like an
ordinary directory. -/
theorem c6_symlink_dir_counterexample :
    analyze noBroken "/r".data
        (some (.dir 0 (.cons "d".data (.symlink true) .nil)))
      = .ok [⟨.folder, "/r".data, "r".data, .label "FOLDER".data,
          "0".data⟩] ∧
    (walkTop "/r".data
        (some (.dir 0 (.cons "d".data (.symlink true) .nil)))).map
      Frame.dirpath = ["/r".data] := by
  exact ⟨by decide, by decide⟩

/-- C7.  When the input path passes the existence check and the
lowercased output extension is not registered, `generate` fails with
the unsupported-extension error before any traversal or write (the
effect trace is empty), and the error message lists exactly the seven
supported extensions in sorted order. -/
theorem c7_unsupported_ext (broken : Str → Bool) (inputPath : Str)
    (root : Option FSNode) (outputPath : Str)
    (hex : path_exists broken inputPath root = true)
    (hun : lookupWriter (lowerStr (splitext_ext outputPath)) = none) :
    generateT broken inputPath root outputPath
      = (.error (.unsupported
          (unsupportedMsg (lowerStr (splitext_ext outputPath)))), []) ∧
    unsupportedMsg (lowerStr (splitext_ext outputPath))
      = "Неподдерживаемое расширение: ".data
          ++ lowerStr (splitext_ext outputPath)
          ++ ". Поддерживаются: .csv, .docx, .json, .log, .pdf, .txt, .xlsx".data := by
  constructor
  · unfold generateT
    rw [if_neg (by simp [hex]), hun]
  · unfold unsupportedMsg
    have hj : ". Поддерживаются: ".data
        ++ joinComma (sortStrs (writerExts.map Prod.fst))
        = ". Поддерживаются: .csv, .docx, .json, .log, .pdf, .txt, .xlsx".data := by
      decide
    rw [List.append_assoc, hj]

/-- C8.  When the input path does not exist, `generate` fails with the
not-found error and its effect trace is empty: no traversal happens and
no writer is invoked, so the destination file is neither created nor
modified. -/
theorem c8_missing_input (broken : Str → Bool) (inputPath : Str)
    (root : Option FSNode) (outputPath : Str)
    (hex : path_exists broken inputPath root = false) :
    generateT broken inputPath root outputPath
      = (.error (.notFound ("Путь не существует: ".data ++ inputPath)),
          []) := by
  unfold generateT
  rw [if_pos hex]

/-- C9.  Sanitization in the PDF writer is total and local: every
character of a sanitized name lies in the allowed class, the PDF lines
embed the sanitized name, while the CSV, JSON, Text, RichDocument and
Spreadsheet renderings all embed the original unsanitized name. -/
theorem c9_pdf_sanitization_local :
    (∀ s : Str, ∀ c ∈ sanitize s, allowedChar c = true) ∧
    (∀ e : Element, ∃ pre post,
      pdfLine e = pre ++ sanitize e.name ++ post) ∧
    (∀ els : List Element, (pdfWrite els).2 = els.map pdfLine) ∧
    (∀ e : Element, ∃ pre post, csvLine e = pre ++ e.name ++ post) ∧
    (∀ e : Element, ∃ pre post, textLine e = pre ++ e.name ++ post) ∧
    (∀ els : List Element,
      (jsonWrite els).map JsonObj.name = els.map Element.name) ∧
    (∀ e : Element, (xlsxRow e).get? 1 = some (.s e.name)) ∧
    (∀ els : List Element, (docxWrite els).2 = els.map textLine) := by
  refine ⟨?_, ?_, fun els => rfl, ?_, ?_, ?_, fun e => rfl, fun els => rfl⟩
  · intro s c hc
    obtain ⟨a, _, rfl⟩ := List.mem_map.mp hc
    by_cases h : allowedChar a = true
    · rw [if_pos h]; exact h
    · rw [if_neg h]; decide
  · intro e
    by_cases h : folderLike e.elem_type = true
    · exact ⟨"[DIR]  ".data, " | Modified: ".data ++ e.mtime,
        by simp only [pdfLine, if_pos h]; simp [List.append_assoc]⟩
    · exact ⟨"[FILE] ".data, " | Size: ".data ++ renderSOT e.size_or_type
        ++ " bytes | Modified: ".data ++ e.mtime,
        by simp only [pdfLine, if_neg h]; simp [List.append_assoc]⟩
  · intro e
    refine ⟨rowType e.elem_type ++ [','],
      ',' :: renderSOT e.size_or_type ++ ',' :: e.mtime, ?_⟩
    simp [csvLine, List.append_assoc]
  · intro e
    by_cases h : folderLike e.elem_type = true
    · exact ⟨"Папка: ".data, " | Тип: ".data ++ renderSOT e.size_or_type
        ++ " | Дата изменения: ".data ++ e.mtime,
        by simp only [textLine, if_pos h]; simp [List.append_assoc]⟩
    · exact ⟨"Файл: ".data, " | Размер: ".data ++ renderSOT e.size_or_type
        ++ " байт | Дата изменения: ".data ++ e.mtime,
        by simp only [textLine, if_neg h]; simp [List.append_assoc]⟩
  · intro els
    simp only [jsonWrite, List.map_map]
    rfl

/-- C10.  Once the input and the output extension are validated, the
effects of `generate` are exactly: traversal, then — only when the
analyzer returned its complete sequence — a single write of the
rendered report.  When the analyzer raises, the error propagates and
the trace holds no write: the destination is never created, opened or
modified. -/
theorem c10_analyzer_error_no_write (broken : Str → Bool)
    (inputPath : Str) (root : Option FSNode) (outputPath : Str)
    (w : WriterKind)
    (hex : path_exists broken inputPath root = true)
    (hw : lookupWriter (lowerStr (splitext_ext outputPath)) = some w) :
    (∀ e, analyze broken inputPath root = .error e →
      generateT broken inputPath root outputPath
        = (.error (.ioFailure e), [.traverse inputPath])) ∧
    (∀ els, analyze broken inputPath root = .ok els →
      generateT broken inputPath root outputPath
        = (.ok (), [.traverse inputPath,
            .writeFile outputPath (render w els)])) := by
  constructor
  · intro e he
    unfold generateT
    rw [if_neg (by simp [hex]), hw, he]
  · intro els hels
    unfold generateT
    rw [if_neg (by simp [hex]), hw, hels]

/-! ### Witness applications -/

theorem c1_folder_preorder_app :
    ∃ els, analyze noBroken "/r".data (some treeW) = .ok els ∧
      els.countP (fun e => e.elem_type == ElemType.folder
        && e.path == "/r/sub".data) = 1 ∧
      ∃ l₁ r₀ l₂, els = l₁ ++ r₀ :: l₂ ∧ r₀.elem_type = .folder ∧
        r₀.path = "/r/sub".data ∧
        ∀ e ∈ l₁, ¬ DirectChild "/r/sub".data e.path :=
  c1_folder_preorder "/r".data treeW (by decide) (by decide)
    "/r/sub".data (by decide)

theorem c2_empty_iff_unlistable_app :
    analyze noBroken "/r".data (some (FSNode.file 5 0)) = .ok [] ∧
    (∃ rest, analyze noBroken "/r".data (some treeW)
      = .ok (⟨.folder, "/r".data, basename "/r".data,
          .label "FOLDER".data, formatTime 7⟩ :: rest)) ∧
    analyze noBroken "/r".data (some (FSNode.dir 4 .nil))
      = .ok [⟨.folder, "/r".data, basename "/r".data,
          .label "FOLDER".data, formatTime 4⟩] := by
  have h := c2_empty_iff_unlistable "/r".data (by decide)
  exact ⟨h.2.1 5 0, h.2.2.1 7 chW, h.2.2.2 4⟩

theorem c3_symlink_file_skipped_app :
    ∃ els, analyze noBroken "/r".data (some treeW) = .ok els ∧
      ∀ e ∈ els, e.path ≠ joinP frameW.dirpath "lnk.zip".data :=
  c3_symlink_file_skipped "/r".data treeW (by decide) (by decide)
    frameW (by decide) "lnk.zip".data (by decide)

theorem c4_zip_classification_app :
    ∃ els e, analyze noBroken "/r".data (some treeW) = .ok els ∧
      e ∈ els ∧ e.path = joinP frameW2.dirpath "ARCHIVE.Zip".data ∧
      (∀ e2 ∈ els,
        e2.path = joinP frameW2.dirpath "ARCHIVE.Zip".data → e2 = e) ∧
      (endsWithZip "ARCHIVE.Zip".data = true →
        e.elem_type = .zip_folder ∧
          e.size_or_type = .label "FOLDER".data) ∧
      (endsWithZip "ARCHIVE.Zip".data = false →
        e.elem_type = .file ∧
          e.size_or_type = .size (stSize (.file 9 3))) :=
  c4_zip_classification "/r".data treeW (by decide) (by decide)
    frameW2 (by decide) "ARCHIVE.Zip".data (.file 9 3) (by decide)
    (by decide)

theorem c5_names_amended_app :
    ∃ els, analyze noBroken "/r".data (some treeW) = .ok els ∧
      (∀ e ∈ els, e.name = basename e.path) ∧
      (∀ e ∈ els, e.path = "/r".data → e.name = basename "/r".data) ∧
      (∀ e ∈ els, e.path = "/r".data ∨ e.name ≠ []) :=
  c5_names_amended "/r".data treeW (by decide) (by decide)

theorem c6_symlink_dir_not_followed_app :
    ∃ els, analyze noBroken "/r".data (some treeW) = .ok els ∧
      (∀ e ∈ els, e.path ≠ joinP frameW.dirpath "dlnk".data) ∧
      (∀ g ∈ walkTop "/r".data (some treeW),
        g.dirpath ≠ joinP frameW.dirpath "dlnk".data) :=
  c6_symlink_dir_not_followed "/r".data treeW (by decide) (by decide)
    frameW (by decide) "dlnk".data (by decide)

theorem c7_unsupported_ext_app :
    (generateT noBroken "/r".data (some treeW) "report.xyz".data
      = (.error (.unsupported (unsupportedMsg ".xyz".data)), [])) ∧
    unsupportedMsg ".xyz".data
      = "Неподдерживаемое расширение: .xyz. Поддерживаются: .csv, .docx, .json, .log, .pdf, .txt, .xlsx".data ∧
    (generateT noBroken "/r".data (some treeW) "reportnoext".data
      = (.error (.unsupported (unsupportedMsg [])), [])) := by
  refine ⟨(c7_unsupported_ext noBroken "/r".data (some treeW)
      "report.xyz".data (by decide) (by decide)).1, ?_,
    (c7_unsupported_ext noBroken "/r".data (some treeW)
      "reportnoext".data (by decide) (by decide)).1⟩
  have h := (c7_unsupported_ext noBroken "/r".data (some treeW)
    "report.xyz".data (by decide) (by decide)).2
  exact h.trans (by decide)

theorem c8_missing_input_app :
    generateT noBroken "/does/not/exist".data none "r.csv".data
      = (.error (.notFound "Путь не существует: /does/not/exist".data),
          []) := by
  have h := c8_missing_input noBroken "/does/not/exist".data none
    "r.csv".data (by decide)
  exact h.trans (by decide)

theorem c9_pdf_sanitization_local_app :
    allowedChar '_' = true ∧
    (∃ pre post, pdfLine eW = pre ++ sanitize "日本語.txt".data ++ post) ∧
    (∃ pre post, csvLine eW = pre ++ "日本語.txt".data ++ post) ∧
    (∃ pre post, textLine eW = pre ++ "日本語.txt".data ++ post) :=
  ⟨c9_pdf_sanitization_local.1 "日".data '_' (by decide),
    c9_pdf_sanitization_local.2.1 eW,
    c9_pdf_sanitization_local.2.2.2.1 eW,
    c9_pdf_sanitization_local.2.2.2.2.1 eW⟩

theorem c10_analyzer_error_no_write_app :
    generateT brokenW "/r".data (some treeW) "r.csv".data
      = (.error (.ioFailure (.statFailed "/r/a.txt".data)),
          [.traverse "/r".data]) ∧
    generateT noBroken "/r".data (some (FSNode.dir 4 .nil)) "r.csv".data
      = (.ok (), [.traverse "/r".data, .writeFile "r.csv".data
          (render .csv [⟨.folder, "/r".data, "r".data,
            .label "FOLDER".data, "4".data⟩])]) := by
  constructor
  · exact (c10_analyzer_error_no_write brokenW "/r".data (some treeW)
      "r.csv".data .csv (by decide) (by decide)).1
      (.statFailed "/r/a.txt".data) (by decide)
  · exact (c10_analyzer_error_no_write noBroken "/r".data
      (some (FSNode.dir 4 .nil)) "r.csv".data .csv (by decide)
      (by decide)).2
      [⟨.folder, "/r".data, "r".data, .label "FOLDER".data, "4".data⟩]
      (by decide)

end Task6
